import Mathlib

/-!
Verification of the stride-detection core of `fix-pixelart` (src/main.rs).

The embedding models:
* `Rgba`, `CurrentStride` — the pixel and run-state types;
* `get_smallest_stride_phase1` — the interleaved horizontal/vertical run scan
  (the Rust function mutates a `HashSet<u32>` and returns `false` on disproof;
  here the set is threaded explicitly and disproof is `none`);
* `get_smallest_stride_phase2` — the smallest-divides-all reducer;
* `get_smallest_stride`, `get_smallest_stride_from_animation`, and the
  first-frame-only path of `resize_as_animated_gif`.
-/

/-- Model of `image::Rgba<u8>`: four 8-bit channels; equality is channel-wise. -/
structure Rgba where
  r : Nat
  g : Nat
  b : Nat
  a : Nat
deriving DecidableEq, Repr

/-- The color `Rgba([0, 0, 0, 0])` used to initialise run states. -/
def Rgba.black0 : Rgba := ⟨0, 0, 0, 0⟩

/-- Model of the Rust struct `CurrentStride { color: Rgba<u8>, stride: u32 }`. -/
structure CurrentStride where
  color : Rgba
  stride : Nat
deriving DecidableEq, Repr

/-- The initial run state `CurrentStride { color: Rgba([0,0,0,0]), stride: 0 }`. -/
def dummyCS : CurrentStride := ⟨Rgba.black0, 0⟩

/-- A decoded frame (the `PixelSource`): dimensions plus random-access pixels,
mirroring `DynamicImage::get_pixel`. -/
structure Image where
  width : Nat
  height : Nat
  pix : Nat → Nat → Rgba

/-- Pointwise update of the per-column state vector `curr_y` (`curr_y[x] = v`). -/
def updF (f : Nat → CurrentStride) (i : Nat) (v : CurrentStride) : Nat → CurrentStride :=
  fun j => if j = i then v else f j

/-- A `for i in pos..pos+n` loop whose body may fail (Rust `return false`). -/
def forLoopM {σ : Type} (g : σ → Nat → Option σ) : Nat → Nat → σ → Option σ
  | 0, _, st => some st
  | n + 1, i, st => (g st i).bind (forLoopM g n (i + 1))

/-- One run-tracking step of `get_smallest_stride_phase1` for one pixel on one
scan line: the `if color == curr.color { ... } else { ... }` block, where `pos`
is `x` for the horizontal state and `y` for the vertical one.  `none` models the
early `return false`. -/
def pixStep (ignoreBorder : Bool) (pos : Nat) (color : Rgba)
    (cs : CurrentStride) (strides : Finset Nat) :
    Option (CurrentStride × Finset Nat) :=
  if color = cs.color then
    some ({ cs with stride := cs.stride + 1 }, strides)
  else if ignoreBorder = false ∨ pos > cs.stride then
    if cs.stride = 1 then none
    else if 0 < cs.stride ∧ 0 < cs.color.a then
      some (⟨color, 1⟩, insert cs.stride strides)
    else
      some (⟨color, 1⟩, strides)
  else
    some (⟨color, 1⟩, strides)

/-- Closing a run unconditionally: the `if curr.stride == 1 { return false }`
and insertion block executed at the end of a row (for `curr_x`) and after the
last row (for each `curr_y`) when `ignore_border` is off. -/
def endClose (cs : CurrentStride) (strides : Finset Nat) : Option (Finset Nat) :=
  if cs.stride = 1 then none
  else if 0 < cs.stride ∧ 0 < cs.color.a then some (insert cs.stride strides)
  else some strides

/-- The body of the inner `for x in 0..img.width()` loop: a horizontal step on
`curr_x`, then a vertical step on `curr_y[x]`, for the pixel at `(x, y)`. -/
def rowStep (img : Image) (ib : Bool) (y : Nat)
    (st : (CurrentStride × (Nat → CurrentStride)) × Finset Nat) (x : Nat) :
    Option ((CurrentStride × (Nat → CurrentStride)) × Finset Nat) :=
  match pixStep ib x (img.pix x y) st.1.1 st.2 with
  | none => none
  | some (cx, s) =>
    match pixStep ib y (img.pix x y) (st.1.2 x) s with
    | none => none
    | some (cy, s') => some ((cx, updF st.1.2 x cy), s')

/-- The body of the outer `for y in 0..img.height()` loop: scan row `y` with a
fresh `curr_x`, then close `curr_x` when `ignore_border` is off. -/
def scanRow (img : Image) (ib : Bool)
    (st : (Nat → CurrentStride) × Finset Nat) (y : Nat) :
    Option ((Nat → CurrentStride) × Finset Nat) :=
  match forLoopM (rowStep img ib y) img.width 0 ((dummyCS, st.1), st.2) with
  | none => none
  | some ((cx, currY), s) =>
    if ib then some (currY, s)
    else
      match endClose cx s with
      | none => none
      | some s' => some (currY, s')

/-- The body of the final `for curr_y in &curr_y` loop. -/
def colClose (st : (Nat → CurrentStride) × Finset Nat) (x : Nat) :
    Option ((Nat → CurrentStride) × Finset Nat) :=
  match endClose (st.1 x) st.2 with
  | none => none
  | some s => some (st.1, s)

/-- Model of `get_smallest_stride_phase1`.  The Rust function takes
`&mut HashSet<u32>` and returns a `bool`; here the set is passed in and the
updated set is returned, with `none` for `return false`. -/
def get_smallest_stride_phase1 (img : Image) (strides : Finset Nat) (ib : Bool) :
    Option (Finset Nat) :=
  match forLoopM (scanRow img ib) img.height 0 ((fun _ => dummyCS), strides) with
  | none => none
  | some (currY, s) =>
    if ib then some s
    else
      match forLoopM colClose img.width 0 (currY, s) with
      | none => none
      | some (_, s') => some s'

/-- Model of `get_smallest_stride_phase2`: sort ascending, defensively skip a
leading `0`, reject a minimum of `1`, then require every later candidate to be
a multiple of the minimum. -/
def get_smallest_stride_phase2 (strides : Finset Nat) : Nat :=
  match strides.sort (· ≤ ·) with
  | [] => 1
  | m0 :: rest =>
    match (if m0 = 0 then rest else m0 :: rest) with
    | [] => 1
    | m :: others =>
      if m = 1 then 1
      else if others.all (fun k => k % m == 0) then m else 1

/-- Model of `get_smallest_stride`: run the scan on a fresh empty set, then
reduce; a disproved scan yields `1`. -/
def get_smallest_stride (img : Image) (ib : Bool) : Nat :=
  match get_smallest_stride_phase1 img ∅ ib with
  | none => 1
  | some s => get_smallest_stride_phase2 s

/-- Loop of `get_smallest_stride_from_animation`: scan each frame into the one
shared set, returning `1` as soon as any frame disproves. -/
def animGo : List Image → Finset Nat → Bool → Nat
  | [], s, _ => get_smallest_stride_phase2 s
  | f :: rest, s, ib =>
    match get_smallest_stride_phase1 f s ib with
    | none => 1
    | some s' => animGo rest s' ib

/-- Model of `get_smallest_stride_from_animation` (the `ImageResult` wrapper is
always `Ok`, so it is dropped). -/
def get_smallest_stride_from_animation (frames : List Image) (ib : Bool) : Nat :=
  animGo frames ∅ ib

/-- The stride computed by `resize_as_animated_gif` when
`only_analyze_first_frame` is set: the first frame's stride, or `0` for an
empty frame sequence. -/
def first_frame_min_stride (frames : List Image) (ib : Bool) : Nat :=
  match frames with
  | [] => 0
  | img :: _ => get_smallest_stride img ib

/-- The caller-side failure test `min_stride <= 1` (both in `resize_still_image`
and `resize_as_animated_gif`). -/
def detection_failed (minStride : Nat) : Prop := minStride ≤ 1

/-- A constant-color image, used for concrete test frames. -/
def constImg (w h : Nat) (c : Rgba) : Image := ⟨w, h, fun _ _ => c⟩

/-- The `n × n` block replication of an image (nearest-neighbour upscaling as
described by the spec's round-trip property). -/
def upscale (img : Image) (n : Nat) : Image :=
  ⟨img.width * n, img.height * n, fun x y => img.pix (x / n) (y / n)⟩

/-- No two horizontally or vertically adjacent pixels of the image share a
color (the side condition of the spec's upscale round-trip property). -/
def adjacentDistinct (img : Image) : Prop :=
  ∀ x < img.width, ∀ y < img.height,
    (x + 1 < img.width → img.pix x y ≠ img.pix (x + 1) y) ∧
    (y + 1 < img.height → img.pix x y ≠ img.pix x (y + 1))

instance (img : Image) : Decidable (adjacentDistinct img) := by
  unfold adjacentDistinct
  exact inferInstance

/-!
Specification side: a pure trace of the scan.  Each closing of a run emits an
aggregate — a disproof flag plus the set of inserted run lengths — and the
aggregates of a whole scan combine in a commutative monoid, which lets the
interleaved horizontal/vertical traversal be decomposed into independent
per-line scans.
-/

/-- The observable effect of a piece of the scan: whether it hit the
`return false` disproof, and which run lengths it inserted. -/
structure Agg where
  bad : Bool
  found : Finset Nat
deriving DecidableEq

instance : One Agg := ⟨⟨false, ∅⟩⟩

instance : Mul Agg := ⟨fun u v => ⟨u.bad || v.bad, u.found ∪ v.found⟩⟩

theorem Agg.mul_def (u v : Agg) : u * v = ⟨u.bad || v.bad, u.found ∪ v.found⟩ := rfl

theorem Agg.one_def : (1 : Agg) = ⟨false, ∅⟩ := rfl

@[simp] theorem Agg.mul_bad (u v : Agg) : (u * v).bad = (u.bad || v.bad) := rfl

@[simp] theorem Agg.mul_found (u v : Agg) : (u * v).found = u.found ∪ v.found := rfl

@[simp] theorem Agg.one_bad : (1 : Agg).bad = false := rfl

@[simp] theorem Agg.one_found : (1 : Agg).found = ∅ := rfl

instance : CommMonoid Agg where
  mul_assoc u v w := by
    cases u; cases v; cases w
    simp [Agg.mul_def, Bool.or_assoc, Finset.union_assoc]
  one_mul u := by cases u; simp [Agg.mul_def, Agg.one_def]
  mul_one u := by cases u; simp [Agg.mul_def, Agg.one_def]
  mul_comm u v := by
    cases u; cases v
    simp [Agg.mul_def, Bool.or_comm, Finset.union_comm]

/-- Aggregate emitted by closing the run state `cs` with the checks enabled. -/
def closeAgg (cs : CurrentStride) : Agg :=
  ⟨cs.stride == 1,
   if cs.stride ≠ 1 ∧ 0 < cs.stride ∧ 0 < cs.color.a then {cs.stride} else ∅⟩

/-- Pure mirror of `pixStep`: the new run state together with the emitted
aggregate. -/
def stepAgg (ib : Bool) (pos : Nat) (color : Rgba) (cs : CurrentStride) :
    CurrentStride × Agg :=
  if color = cs.color then ({ cs with stride := cs.stride + 1 }, 1)
  else if ib = false ∨ pos > cs.stride then (⟨color, 1⟩, closeAgg cs)
  else (⟨color, 1⟩, 1)

/-- A pure `for` loop accumulating the product of emitted aggregates. -/
def forLoopA {σ : Type} (f : σ → Nat → σ × Agg) : Nat → Nat → σ → σ × Agg
  | 0, _, st => (st, 1)
  | n + 1, i, st =>
    (fun p => (fun q => (q.1, p.2 * q.2)) (forLoopA f n (i + 1) p.1)) (f st i)

/-- Pure mirror of `rowStep`. -/
def rowStepA (img : Image) (ib : Bool) (y : Nat)
    (st : CurrentStride × (Nat → CurrentStride)) (x : Nat) :
    (CurrentStride × (Nat → CurrentStride)) × Agg :=
  (fun h v => ((h.1, updF st.2 x v.1), h.2 * v.2))
    (stepAgg ib x (img.pix x y) st.1) (stepAgg ib y (img.pix x y) (st.2 x))

/-- Pure mirror of the vertical half of `rowStep` alone. -/
def vStepA (img : Image) (ib : Bool) (y : Nat)
    (st : Nat → CurrentStride) (x : Nat) : (Nat → CurrentStride) × Agg :=
  (fun v => (updF st x v.1, v.2)) (stepAgg ib y (img.pix x y) (st x))

/-- Pure mirror of `scanRow`. -/
def scanRowA (img : Image) (ib : Bool) (st : Nat → CurrentStride) (y : Nat) :
    (Nat → CurrentStride) × Agg :=
  (fun p => if ib then (p.1.2, p.2) else (p.1.2, p.2 * closeAgg p.1.1))
    (forLoopA (rowStepA img ib y) img.width 0 (dummyCS, st))

/-- Pure mirror of `colClose`. -/
def colCloseA (st : Nat → CurrentStride) (x : Nat) : (Nat → CurrentStride) × Agg :=
  (st, closeAgg (st x))

/-- The total aggregate of one frame scan. -/
def phase1Agg (img : Image) (ib : Bool) : Agg :=
  (fun p =>
    if ib then p.2 else p.2 * (forLoopA colCloseA img.width 0 p.1).2)
    (forLoopA (scanRowA img ib) img.height 0 (fun _ => dummyCS))

/-- Pure scan of one whole line (a list of colors) starting at position `pos`
in state `cs`. -/
def lineA (ib : Bool) : List Rgba → Nat → CurrentStride → CurrentStride × Agg
  | [], _, cs => (cs, 1)
  | c :: rest, pos, cs =>
    (fun p => (fun q => (q.1, p.2 * q.2)) (lineA ib rest (pos + 1) p.1))
      (stepAgg ib pos c cs)

/-!
Maximal runs of a scan line, and the per-line checked-run aggregates.
-/

/-- The maximal runs of a list of colors, in order, as (color, length) pairs. -/
def runsOf : List Rgba → List (Rgba × Nat)
  | [] => []
  | c :: rest =>
    match runsOf rest with
    | [] => [(c, 1)]
    | (c', n) :: tail =>
      if c = c' then (c, n + 1) :: tail else (c, 1) :: (c', n) :: tail

/-- The run state left over after scanning a line whose runs are `rs`. -/
def runsState (rs : List (Rgba × Nat)) : CurrentStride :=
  match rs.getLast? with
  | none => dummyCS
  | some r => ⟨r.1, r.2⟩

/-- The runs closed with checks enabled while scanning a line (no end closing):
all runs except the still-open last one, and except the first one when it is
border-exempt (`firstChecked = false`). -/
def scanChecked (firstChecked : Bool) (rs : List (Rgba × Nat)) : List (Rgba × Nat) :=
  if firstChecked then rs.dropLast else rs.dropLast.tail

/-- The runs of a full line that undergo the length-1 disproof check and the
insertion step: with `ignore_border` all of them, otherwise all but the first
and the last. -/
def checkedRuns (ib : Bool) (l : List Rgba) : List (Rgba × Nat) :=
  if ib then (runsOf l).dropLast.tail else runsOf l

theorem runsOf_cons_eq (c : Rgba) (l : List Rgba) :
    runsOf (c :: l) =
      match runsOf l with
      | [] => [(c, 1)]
      | (c', n) :: tail =>
        if c = c' then (c, n + 1) :: tail else (c, 1) :: (c', n) :: tail := rfl

theorem runsOf_cons_shape (c : Rgba) (l : List Rgba) :
    ∃ n tail, runsOf (c :: l) = (c, n) :: tail ∧ 0 < n := by
  rw [runsOf_cons_eq]
  match h : runsOf l with
  | [] => exact ⟨1, [], rfl, Nat.one_pos⟩
  | (c', n) :: tail =>
    by_cases hc : c = c'
    · exact ⟨n + 1, tail, by simp [hc], Nat.succ_pos n⟩
    · exact ⟨1, (c', n) :: tail, by simp [hc], Nat.one_pos⟩

theorem runsOf_ne_nil (c : Rgba) (l : List Rgba) : runsOf (c :: l) ≠ [] := by
  obtain ⟨n, tail, h, -⟩ := runsOf_cons_shape c l
  simp [h]

theorem runsOf_replicate (k : Nat) (c : Rgba) (hk : 0 < k) :
    runsOf (List.replicate k c) = [(c, k)] := by
  induction k with
  | zero => exact absurd hk (by simp)
  | succ k ih =>
    cases k with
    | zero => simp [runsOf]
    | succ k' =>
      rw [List.replicate_succ, runsOf_cons_eq, ih (Nat.succ_pos k')]
      simp

theorem runsOf_replicate_append (k : Nat) (c : Rgba) (l : List Rgba)
    (hk : 0 < k) (hl : l.head? ≠ some c) :
    runsOf (List.replicate k c ++ l) = (c, k) :: runsOf l := by
  induction k with
  | zero => exact absurd hk (by simp)
  | succ k ih =>
    cases k with
    | zero =>
      cases l with
      | nil => simp [runsOf]
      | cons c' rest =>
        have hcc : c ≠ c' := by
          intro h; exact hl (by simp [h])
        obtain ⟨n, tail, hshape, -⟩ := runsOf_cons_shape c' rest
        simp only [List.replicate_succ, List.replicate_zero, List.nil_append,
          List.singleton_append]
        rw [runsOf_cons_eq, hshape]
        simp [hcc]
    | succ k' =>
      rw [List.replicate_succ, List.cons_append, runsOf_cons_eq,
        ih (Nat.succ_pos k')]
      simp

theorem runsOf_pos (l : List Rgba) : ∀ r ∈ runsOf l, 0 < r.2 := by
  induction l with
  | nil => simp [runsOf]
  | cons c rest ih =>
    intro r hr
    rw [runsOf_cons_eq] at hr
    revert hr
    match h : runsOf rest with
    | [] => intro hr; simp at hr; simp [hr]
    | (c', n) :: tail =>
      intro hr
      by_cases hc : c = c'
      · simp [hc] at hr
        rcases hr with hr | hr
        · simp [hr]
        · exact ih r (by rw [h]; exact List.mem_cons_of_mem _ hr)
      · simp [hc] at hr
        rcases hr with hr | hr | hr
        · simp [hr]
        · exact ih r (by rw [h, hr]; exact List.mem_cons_self _ _)
        · exact ih r (by rw [h]; exact List.mem_cons_of_mem _ hr)

theorem runsOf_len_le (l : List Rgba) : ∀ r ∈ runsOf l, r.2 ≤ l.length := by
  induction l with
  | nil => simp [runsOf]
  | cons c rest ih =>
    intro r hr
    rw [runsOf_cons_eq] at hr
    revert hr
    match h : runsOf rest with
    | [] => intro hr; simp at hr; simp [hr]
    | (c', n) :: tail =>
      intro hr
      have hn : n ≤ rest.length := ih (c', n) (by rw [h]; exact List.mem_cons_self _ _)
      by_cases hc : c = c'
      · simp [hc] at hr
        rcases hr with hr | hr
        · simp [hr]; omega
        · have := ih r (by rw [h]; exact List.mem_cons_of_mem _ hr)
          simp; omega
      · simp [hc] at hr
        rcases hr with hr | hr | hr
        · simp [hr]
        · have : r.2 = n := by rw [hr]
          simp [this]; omega
        · have := ih r (by rw [h]; exact List.mem_cons_of_mem _ hr)
          simp; omega

/-- The aggregate of closing one completed run with checks enabled. -/
def closeRun (r : Rgba × Nat) : Agg := closeAgg ⟨r.1, r.2⟩

theorem closeAgg_dummy : closeAgg dummyCS = 1 := by decide

theorem getLast?_cons_of_ne_nil {α : Type} (a : α) {l : List α} (h : l ≠ []) :
    (a :: l).getLast? = l.getLast? := by
  cases l with
  | nil => exact absurd rfl h
  | cons b t => exact List.getLast?_cons_cons

theorem lineA_runs_aux (ib : Bool) (l : List Rgba) :
    ∀ (c : Rgba) (k i : Nat), 0 < k → k ≤ i →
    lineA ib l i ⟨c, k⟩ =
      (runsState (runsOf (List.replicate k c ++ l)),
       ((scanChecked (!ib || decide (k < i))
          (runsOf (List.replicate k c ++ l))).map closeRun).prod) := by
  induction l with
  | nil =>
    intro c k i hk hki
    rw [List.append_nil, runsOf_replicate k c hk]
    have h2 : ∀ fc, scanChecked fc [(c, k)] = [] := by
      intro fc; cases fc <;> rfl
    rw [h2]
    rfl
  | cons c0 rest ih =>
    intro c k i hk hki
    by_cases hc : c0 = c
    · subst hc
      have hstep : stepAgg ib i c0 ⟨c0, k⟩ = (⟨c0, k + 1⟩, 1) := by
        simp [stepAgg]
      have hrepl : List.replicate (k + 1) c0 ++ rest
          = List.replicate k c0 ++ (c0 :: rest) := by
        rw [List.replicate_succ', List.append_assoc]
        rfl
      have hdec : (decide (k + 1 < i + 1)) = (decide (k < i)) :=
        decide_eq_decide.mpr (by omega)
      have hih := ih c0 (k + 1) (i + 1) (Nat.succ_pos k) (by omega)
      rw [hrepl, hdec] at hih
      show (fun p => (fun q => (q.1, p.2 * q.2)) (lineA ib rest (i + 1) p.1))
          (stepAgg ib i c0 ⟨c0, k⟩) = _
      rw [hstep]
      simp only [hih, one_mul]
    · have hne : (c0 :: rest).head? ≠ some c := by
        simp [hc]
      have hruns := runsOf_replicate_append k c (c0 :: rest) hk hne
      obtain ⟨n0, tail0, hshape, -⟩ := runsOf_cons_shape c0 rest
      have hq := ih c0 1 (i + 1) Nat.one_pos (by omega)
      rw [decide_eq_true (by omega : 1 < i + 1), Bool.or_true,
        show List.replicate 1 c0 ++ rest = c0 :: rest by simp [List.replicate]] at hq
      have hq' : lineA ib rest (i + 1) ⟨c0, 1⟩
          = (runsState (runsOf (c0 :: rest)),
             ((runsOf (c0 :: rest)).dropLast.map closeRun).prod) := by
        rw [hq]
        unfold scanChecked
        rw [if_pos rfl]
      have hstate : runsState ((c, k) :: runsOf (c0 :: rest))
          = runsState (runsOf (c0 :: rest)) := by
        unfold runsState
        rw [getLast?_cons_of_ne_nil _ (runsOf_ne_nil c0 rest)]
      have hdl : ((c, k) :: runsOf (c0 :: rest)).dropLast
          = (c, k) :: (runsOf (c0 :: rest)).dropLast := by
        rw [hshape]
        rfl
      have hstepA : stepAgg ib i c0 ⟨c, k⟩
          = (⟨c0, 1⟩, if ib = false ∨ i > k then closeAgg ⟨c, k⟩ else 1) := by
        unfold stepAgg
        simp only [hc]
        by_cases hcond : ib = false ∨ i > k
        · simp [hcond, CurrentStride.mk.injEq]
        · simp [hcond]
      show (fun p => (fun q => (q.1, p.2 * q.2)) (lineA ib rest (i + 1) p.1))
          (stepAgg ib i c0 ⟨c, k⟩) = _
      rw [hstepA]
      simp only [hq', hruns, hstate]
      by_cases hcond : ib = false ∨ i > k
      · have hfc : (!ib || decide (k < i)) = true := by
          rcases hcond with h | h
          · subst h; rfl
          · simp [decide_eq_true h]
        have hsc : scanChecked (!ib || decide (k < i)) ((c, k) :: runsOf (c0 :: rest))
            = (c, k) :: (runsOf (c0 :: rest)).dropLast := by
          unfold scanChecked
          rw [hfc, if_pos rfl, hdl]
        rw [if_pos hcond, hsc, List.map_cons, List.prod_cons]
        rfl
      · have hib : ib = true := by
          cases ib
          · exact absurd (Or.inl rfl) hcond
          · rfl
        have hilek : ¬ i > k := fun h => hcond (Or.inr h)
        have hfc : (!ib || decide (k < i)) = false := by
          rw [hib]
          simp only [Bool.not_true, Bool.false_or]
          exact decide_eq_false (by omega)
        have hsc : scanChecked (!ib || decide (k < i)) ((c, k) :: runsOf (c0 :: rest))
            = (runsOf (c0 :: rest)).dropLast := by
          unfold scanChecked
          rw [hfc, if_neg (by simp), hdl]
          rfl
        rw [if_neg hcond, hsc, one_mul]

theorem lineA_runs (ib : Bool) (l : List Rgba) :
    lineA ib l 0 dummyCS =
      (runsState (runsOf l),
       ((scanChecked (!ib) (runsOf l)).map closeRun).prod) := by
  cases l with
  | nil =>
    have h2 : ∀ fc, scanChecked fc ([] : List (Rgba × Nat)) = [] := by
      intro fc; cases fc <;> rfl
    rw [show runsOf [] = [] from rfl, h2]
    rfl
  | cons c0 rest =>
    have haux := lineA_runs_aux ib rest c0 1 1 Nat.one_pos (le_refl 1)
    rw [decide_eq_false (by omega : ¬ (1 : Nat) < 1), Bool.or_false,
      show List.replicate 1 c0 ++ rest = c0 :: rest by simp [List.replicate]] at haux
    show (fun p => (fun q => (q.1, p.2 * q.2)) (lineA ib rest (0 + 1) p.1))
        (stepAgg ib 0 c0 dummyCS) = _
    by_cases h0 : c0 = Rgba.black0
    · have hstep : stepAgg ib 0 c0 dummyCS = (⟨c0, 1⟩, 1) := by
        unfold stepAgg
        rw [if_pos (show c0 = dummyCS.color from h0), h0]
        rfl
      rw [hstep]
      simp only [haux, one_mul]
    · have hstep : stepAgg ib 0 c0 dummyCS = (⟨c0, 1⟩, 1) := by
        unfold stepAgg
        rw [if_neg (show ¬ c0 = dummyCS.color from h0)]
        by_cases hcond : ib = false ∨ 0 > dummyCS.stride
        · rw [if_pos hcond, closeAgg_dummy]
        · rw [if_neg hcond]
      rw [hstep]
      simp only [haux, one_mul]

/-- The aggregate of scanning one full line, including the end-of-line closing
when `ignore_border` is off. -/
def lineFullAgg (ib : Bool) (l : List Rgba) : Agg :=
  (fun p => if ib then p.2 else p.2 * closeAgg p.1) (lineA ib l 0 dummyCS)

theorem lineFullAgg_eq (ib : Bool) (l : List Rgba) :
    lineFullAgg ib l = ((checkedRuns ib l).map closeRun).prod := by
  unfold lineFullAgg checkedRuns
  rw [lineA_runs]
  cases ib with
  | true => rfl
  | false =>
    show ((scanChecked (!false) (runsOf l)).map closeRun).prod
        * closeAgg (runsState (runsOf l)) = ((runsOf l).map closeRun).prod
    show ((scanChecked true (runsOf l)).map closeRun).prod
        * closeAgg (runsState (runsOf l)) = _
    have hsc : scanChecked true (runsOf l) = (runsOf l).dropLast := by
      unfold scanChecked
      rw [if_pos rfl]
    rw [hsc]
    match hr : runsOf l with
    | [] =>
      show 1 * closeAgg (runsState []) = 1
      rw [show runsState [] = dummyCS from rfl, closeAgg_dummy, one_mul]
    | r :: rs =>
      have hne : r :: rs ≠ [] := by simp
      have hlast : runsState (r :: rs) = ⟨((r :: rs).getLast hne).1, ((r :: rs).getLast hne).2⟩ := by
        unfold runsState
        rw [List.getLast?_eq_getLast _ hne]
      have hdecomp : (r :: rs).dropLast ++ [(r :: rs).getLast hne] = r :: rs :=
        List.dropLast_append_getLast hne
      calc ((r :: rs).dropLast.map closeRun).prod * closeAgg (runsState (r :: rs))
          = (((r :: rs).dropLast ++ [(r :: rs).getLast hne]).map closeRun).prod := by
            rw [List.map_append, List.prod_append, hlast]
            simp [closeRun]
        _ = ((r :: rs).map closeRun).prod := by rw [hdecomp]

/-!
Bridge: the `Option`-threaded scan equals the interpretation of the pure
aggregate trace.
-/

theorem pixStep_agg (ib : Bool) (pos : Nat) (c : Rgba) (cs : CurrentStride)
    (s : Finset Nat) :
    pixStep ib pos c cs s =
      if (stepAgg ib pos c cs).2.bad then none
      else some ((stepAgg ib pos c cs).1, s ∪ (stepAgg ib pos c cs).2.found) := by
  unfold pixStep stepAgg
  by_cases h1 : c = cs.color
  · rw [if_pos h1, if_pos h1]
    simp
  · rw [if_neg h1, if_neg h1]
    by_cases h2 : ib = false ∨ pos > cs.stride
    · rw [if_pos h2, if_pos h2]
      unfold closeAgg
      by_cases h3 : cs.stride = 1
      · rw [if_pos h3]
        simp [h3]
      · rw [if_neg h3]
        by_cases h4 : 0 < cs.stride ∧ 0 < cs.color.a
        · rw [if_pos h4]
          simp [h3, h4]
          rw [Finset.union_comm, ← Finset.insert_eq]
        · rw [if_neg h4]
          simp [h3, h4]
    · rw [if_neg h2, if_neg h2]
      simp

theorem endClose_agg (cs : CurrentStride) (s : Finset Nat) :
    endClose cs s =
      if (closeAgg cs).bad then none else some (s ∪ (closeAgg cs).found) := by
  unfold endClose closeAgg
  by_cases h3 : cs.stride = 1
  · rw [if_pos h3]
    simp [h3]
  · rw [if_neg h3]
    by_cases h4 : 0 < cs.stride ∧ 0 < cs.color.a
    · rw [if_pos h4]
      simp [h3, h4]
      rw [Finset.union_comm, ← Finset.insert_eq]
    · rw [if_neg h4]
      simp [h3, h4]

theorem rowStep_agg (img : Image) (ib : Bool) (y : Nat)
    (st : CurrentStride × (Nat → CurrentStride)) (s : Finset Nat) (x : Nat) :
    rowStep img ib y (st, s) x =
      if (rowStepA img ib y st x).2.bad then none
      else some ((rowStepA img ib y st x).1, s ∪ (rowStepA img ib y st x).2.found) := by
  unfold rowStep rowStepA
  simp only [pixStep_agg]
  by_cases hb : (stepAgg ib x (img.pix x y) st.1).2.bad
  · simp [hb]
  · by_cases hv : (stepAgg ib y (img.pix x y) (st.2 x)).2.bad
    · simp [hb, hv]
    · simp [hb, hv, Finset.union_assoc]

theorem forLoopM_agg {σ : Type} (g : σ × Finset Nat → Nat → Option (σ × Finset Nat))
    (f : σ → Nat → σ × Agg)
    (hg : ∀ st s i, g (st, s) i =
      if (f st i).2.bad then none
      else some ((f st i).1, s ∪ (f st i).2.found)) :
    ∀ (n i : Nat) (st : σ) (s : Finset Nat),
      forLoopM g n i (st, s) =
        if (forLoopA f n i st).2.bad then none
        else some ((forLoopA f n i st).1, s ∪ (forLoopA f n i st).2.found) := by
  intro n
  induction n with
  | zero =>
    intro i st s
    simp [forLoopM, forLoopA]
  | succ n ihn =>
    intro i st s
    show (g (st, s) i).bind (forLoopM g n (i + 1)) = _
    rw [hg]
    have hA : forLoopA f (n + 1) i st
        = ((forLoopA f n (i + 1) (f st i).1).1,
           (f st i).2 * (forLoopA f n (i + 1) (f st i).1).2) := rfl
    rw [hA]
    by_cases hb : (f st i).2.bad
    · simp [hb]
    · rw [if_neg (by simp [hb])]
      show forLoopM g n (i + 1) ((f st i).1, s ∪ (f st i).2.found) = _
      rw [ihn]
      by_cases hb2 : (forLoopA f n (i + 1) (f st i).1).2.bad
      · simp [hb, hb2]
      · simp [hb, hb2, Finset.union_assoc]

theorem scanRow_agg (img : Image) (ib : Bool) (Y : Nat → CurrentStride)
    (s : Finset Nat) (y : Nat) :
    scanRow img ib (Y, s) y =
      if (scanRowA img ib Y y).2.bad then none
      else some ((scanRowA img ib Y y).1, s ∪ (scanRowA img ib Y y).2.found) := by
  unfold scanRow scanRowA
  rw [forLoopM_agg (rowStep img ib y) (rowStepA img ib y)
    (fun st s' i => rowStep_agg img ib y st s' i)]
  by_cases hb : (forLoopA (rowStepA img ib y) img.width 0 (dummyCS, Y)).2.bad
  · rw [if_pos hb]
    cases ib <;> simp [hb]
  · rw [if_neg hb]
    cases ib with
    | true => simp [hb]
    | false =>
      show (match endClose (forLoopA (rowStepA img false y) img.width 0 (dummyCS, Y)).1.1
          (s ∪ (forLoopA (rowStepA img false y) img.width 0 (dummyCS, Y)).2.found) with
        | none => none
        | some s' => some ((forLoopA (rowStepA img false y) img.width 0 (dummyCS, Y)).1.2, s')) = _
      rw [endClose_agg]
      by_cases hc : (closeAgg (forLoopA (rowStepA img false y) img.width 0 (dummyCS, Y)).1.1).bad
      · simp [hb, hc]
      · simp [hb, hc, Finset.union_assoc]

theorem colClose_agg (st : Nat → CurrentStride) (s : Finset Nat) (x : Nat) :
    colClose (st, s) x =
      if (colCloseA st x).2.bad then none
      else some ((colCloseA st x).1, s ∪ (colCloseA st x).2.found) := by
  unfold colClose colCloseA
  rw [endClose_agg]
  by_cases hc : (closeAgg (st x)).bad
  · simp [hc]
  · simp [hc]

theorem phase1_agg (img : Image) (s : Finset Nat) (ib : Bool) :
    get_smallest_stride_phase1 img s ib =
      if (phase1Agg img ib).bad then none
      else some (s ∪ (phase1Agg img ib).found) := by
  unfold get_smallest_stride_phase1 phase1Agg
  rw [forLoopM_agg (scanRow img ib) (scanRowA img ib)
    (fun st s' i => scanRow_agg img ib st s' i)]
  by_cases hb : (forLoopA (scanRowA img ib) img.height 0 (fun _ => dummyCS)).2.bad
  · rw [if_pos hb]
    cases ib <;> simp [hb]
  · rw [if_neg hb]
    cases ib with
    | true => simp [hb]
    | false =>
      show (match forLoopM colClose img.width 0
          ((forLoopA (scanRowA img false) img.height 0 (fun _ => dummyCS)).1,
           s ∪ (forLoopA (scanRowA img false) img.height 0 (fun _ => dummyCS)).2.found) with
        | none => none
        | some (_, s') => some s') = _
      rw [forLoopM_agg colClose colCloseA (fun st s' i => colClose_agg st s' i)]
      by_cases hc : (forLoopA colCloseA img.width 0
          (forLoopA (scanRowA img false) img.height 0 (fun _ => dummyCS)).1).2.bad
      · simp [hb, hc]
      · simp [hb, hc, Finset.union_assoc]

/-!
Decomposing the interleaved traversal into independent per-line scans.
-/

/-- Row `y` of the image as a list of colors. -/
def rowList (img : Image) (y : Nat) : List Rgba :=
  (List.range img.width).map (fun x => img.pix x y)

/-- Column `x` of the image as a list of colors. -/
def colList (img : Image) (x : Nat) : List Rgba :=
  (List.range img.height).map (fun y => img.pix x y)

theorem range'_succ_eq (s n : Nat) :
    List.range' s (n + 1) = s :: List.range' (s + 1) n := List.range'_succ s n 1

theorem mem_range'_iff {m s n : Nat} :
    m ∈ List.range' s n ↔ s ≤ m ∧ m < s + n := List.mem_range'_1

theorem xloop_decomp (img : Image) (ib : Bool) (y : Nat) :
    ∀ (n i : Nat) (cx : CurrentStride) (Y : Nat → CurrentStride),
    forLoopA (rowStepA img ib y) n i (cx, Y) =
      (((lineA ib ((List.range' i n).map (fun x => img.pix x y)) i cx).1,
        (forLoopA (vStepA img ib y) n i Y).1),
       (lineA ib ((List.range' i n).map (fun x => img.pix x y)) i cx).2
         * (forLoopA (vStepA img ib y) n i Y).2) := by
  intro n
  induction n with
  | zero =>
    intro i cx Y
    show ((cx, Y), 1) = _
    rw [show List.range' i 0 = [] from rfl]
    show ((cx, Y), (1 : Agg)) = ((cx, Y), (1 : Agg) * 1)
    rw [one_mul]
  | succ n ihn =>
    intro i cx Y
    rw [range'_succ_eq, List.map_cons]
    show ((forLoopA (rowStepA img ib y) n (i + 1)
            ((stepAgg ib i (img.pix i y) cx).1,
             updF Y i (stepAgg ib y (img.pix i y) (Y i)).1)).1,
          ((stepAgg ib i (img.pix i y) cx).2 * (stepAgg ib y (img.pix i y) (Y i)).2)
            * (forLoopA (rowStepA img ib y) n (i + 1)
                ((stepAgg ib i (img.pix i y) cx).1,
                 updF Y i (stepAgg ib y (img.pix i y) (Y i)).1)).2) = _
    rw [ihn]
    have hline : lineA ib (img.pix i y :: (List.range' (i + 1) n).map (fun x => img.pix x y)) i cx
        = ((lineA ib ((List.range' (i + 1) n).map (fun x => img.pix x y)) (i + 1)
             (stepAgg ib i (img.pix i y) cx).1).1,
           (stepAgg ib i (img.pix i y) cx).2
             * (lineA ib ((List.range' (i + 1) n).map (fun x => img.pix x y)) (i + 1)
                 (stepAgg ib i (img.pix i y) cx).1).2) := rfl
    have hv : forLoopA (vStepA img ib y) (n + 1) i Y
        = ((forLoopA (vStepA img ib y) n (i + 1)
             (updF Y i (stepAgg ib y (img.pix i y) (Y i)).1)).1,
           (stepAgg ib y (img.pix i y) (Y i)).2
             * (forLoopA (vStepA img ib y) n (i + 1)
                 (updF Y i (stepAgg ib y (img.pix i y) (Y i)).1)).2) := rfl
    rw [hline, hv]
    show ((_, _), _) = ((_, _), _)
    rw [Prod.mk.injEq, Prod.mk.injEq]
    refine ⟨⟨rfl, rfl⟩, ?_⟩
    rw [mul_mul_mul_comm]

theorem vloop_state (img : Image) (ib : Bool) (y : Nat) :
    ∀ (n i : Nat) (Y : Nat → CurrentStride) (x : Nat),
    (forLoopA (vStepA img ib y) n i Y).1 x =
      if i ≤ x ∧ x < i + n then (stepAgg ib y (img.pix x y) (Y x)).1 else Y x := by
  intro n
  induction n with
  | zero =>
    intro i Y x
    rw [if_neg (by omega)]
    rfl
  | succ n ihn =>
    intro i Y x
    show (forLoopA (vStepA img ib y) n (i + 1)
        (updF Y i (stepAgg ib y (img.pix i y) (Y i)).1)).1 x = _
    rw [ihn]
    by_cases hx : x = i
    · subst hx
      rw [if_neg (by omega), if_pos (by omega)]
      show updF Y x (stepAgg ib y (img.pix x y) (Y x)).1 x = _
      unfold updF
      rw [if_pos rfl]
    · have hupd : updF Y i (stepAgg ib y (img.pix i y) (Y i)).1 x = Y x := by
        unfold updF
        rw [if_neg hx]
      by_cases hr : i + 1 ≤ x ∧ x < i + 1 + n
      · rw [if_pos hr, if_pos (by omega), hupd]
      · rw [if_neg hr, if_neg (by omega), hupd]

theorem vloop_agg (img : Image) (ib : Bool) (y : Nat) :
    ∀ (n i : Nat) (Y : Nat → CurrentStride),
    (forLoopA (vStepA img ib y) n i Y).2 =
      ((List.range' i n).map (fun x => (stepAgg ib y (img.pix x y) (Y x)).2)).prod := by
  intro n
  induction n with
  | zero =>
    intro i Y
    rfl
  | succ n ihn =>
    intro i Y
    rw [range'_succ_eq, List.map_cons, List.prod_cons]
    show (stepAgg ib y (img.pix i y) (Y i)).2
        * (forLoopA (vStepA img ib y) n (i + 1)
            (updF Y i (stepAgg ib y (img.pix i y) (Y i)).1)).2 = _
    rw [ihn]
    have hmap : (List.range' (i + 1) n).map
          (fun x => (stepAgg ib y (img.pix x y)
            ((updF Y i (stepAgg ib y (img.pix i y) (Y i)).1) x)).2)
        = (List.range' (i + 1) n).map
          (fun x => (stepAgg ib y (img.pix x y) (Y x)).2) := by
      apply List.map_congr_left
      intro x hx
      have hxi : x ≠ i := by
        have := mem_range'_iff.mp hx
        omega
      unfold updF
      rw [if_neg hxi]
    rw [hmap]

theorem scanRowA_decomp (img : Image) (ib : Bool) (Y : Nat → CurrentStride) (y : Nat) :
    scanRowA img ib Y y =
      ((fun x => if x < img.width then (stepAgg ib y (img.pix x y) (Y x)).1 else Y x),
       lineFullAgg ib (rowList img y)
         * ((List.range img.width).map
             (fun x => (stepAgg ib y (img.pix x y) (Y x)).2)).prod) := by
  have hstate : (forLoopA (vStepA img ib y) img.width 0 Y).1
      = fun x => if x < img.width then (stepAgg ib y (img.pix x y) (Y x)).1 else Y x := by
    funext x
    rw [vloop_state]
    by_cases hx : x < img.width
    · rw [if_pos (by omega), if_pos hx]
    · rw [if_neg (by omega), if_neg hx]
  have hvagg : (forLoopA (vStepA img ib y) img.width 0 Y).2
      = ((List.range img.width).map
          (fun x => (stepAgg ib y (img.pix x y) (Y x)).2)).prod := by
    rw [vloop_agg, List.range_eq_range']
  have hrow : (List.range' 0 img.width).map (fun x => img.pix x y) = rowList img y := by
    rw [rowList, List.range_eq_range']
  unfold scanRowA
  rw [xloop_decomp]
  cases ib with
  | true =>
    show ((forLoopA (vStepA img true y) img.width 0 Y).1,
        (lineA true ((List.range' 0 img.width).map (fun x => img.pix x y)) 0 dummyCS).2
          * (forLoopA (vStepA img true y) img.width 0 Y).2) = _
    rw [hstate, hvagg, hrow]
    rfl
  | false =>
    show ((forLoopA (vStepA img false y) img.width 0 Y).1,
        ((lineA false ((List.range' 0 img.width).map (fun x => img.pix x y)) 0 dummyCS).2
          * (forLoopA (vStepA img false y) img.width 0 Y).2)
          * closeAgg (lineA false ((List.range' 0 img.width).map (fun x => img.pix x y))
              0 dummyCS).1) = _
    rw [hstate, hvagg, hrow, mul_right_comm]
    rfl

theorem yloop_decomp (img : Image) (ib : Bool) :
    ∀ (n i : Nat) (Y : Nat → CurrentStride),
    forLoopA (scanRowA img ib) n i Y =
      ((fun x => if x < img.width
          then (lineA ib ((List.range' i n).map (fun v => img.pix x v)) i (Y x)).1
          else Y x),
       ((List.range' i n).map (fun v => lineFullAgg ib (rowList img v))).prod
         * ((List.range img.width).map
             (fun x => (lineA ib ((List.range' i n).map (fun v => img.pix x v)) i (Y x)).2)).prod) := by
  intro n
  induction n with
  | zero =>
    intro i Y
    show (Y, 1) = _
    rw [show List.range' i 0 = [] from rfl]
    have h1 : (fun x => if x < img.width
        then (lineA ib (([] : List Nat).map (fun v => img.pix x v)) i (Y x)).1 else Y x) = Y := by
      funext x
      show (if x < img.width then Y x else Y x) = Y x
      exact ite_self (Y x)
    rw [h1]
    have h2 : ((List.range img.width).map
        (fun x => (lineA ib (([] : List Nat).map (fun v => img.pix x v)) i (Y x)).2)).prod
        = 1 := by
      apply List.prod_eq_one
      intro a ha
      obtain ⟨x, -, hx⟩ := List.mem_map.mp ha
      rw [← hx]
      rfl
    rw [List.map_nil, h2]
    rfl
  | succ n ihn =>
    intro i Y
    show (fun p => (fun q => (q.1, p.2 * q.2))
        (forLoopA (scanRowA img ib) n (i + 1) p.1)) (scanRowA img ib Y i) = _
    rw [scanRowA_decomp]
    show ((forLoopA (scanRowA img ib) n (i + 1)
            (fun x => if x < img.width then (stepAgg ib i (img.pix x i) (Y x)).1 else Y x)).1,
          (lineFullAgg ib (rowList img i)
            * ((List.range img.width).map
                (fun x => (stepAgg ib i (img.pix x i) (Y x)).2)).prod)
            * (forLoopA (scanRowA img ib) n (i + 1)
                (fun x => if x < img.width then (stepAgg ib i (img.pix x i) (Y x)).1 else Y x)).2) = _
    rw [ihn, range'_succ_eq]
    simp only [List.map_cons, List.prod_cons]
    rw [Prod.ext_iff]
    constructor
    · show (fun x => if x < img.width
          then (lineA ib ((List.range' (i + 1) n).map (fun v => img.pix x v)) (i + 1)
            (if x < img.width then (stepAgg ib i (img.pix x i) (Y x)).1 else Y x)).1
          else (if x < img.width then (stepAgg ib i (img.pix x i) (Y x)).1 else Y x)) = _
      funext x
      by_cases hx : x < img.width
      · simp only [if_pos hx]
        rfl
      · simp only [if_neg hx]
    · show (lineFullAgg ib (rowList img i)
          * ((List.range img.width).map
              (fun x => (stepAgg ib i (img.pix x i) (Y x)).2)).prod)
          * (((List.range' (i + 1) n).map (fun v => lineFullAgg ib (rowList img v))).prod
            * ((List.range img.width).map
                (fun x => (lineA ib ((List.range' (i + 1) n).map (fun v => img.pix x v)) (i + 1)
                  (if x < img.width then (stepAgg ib i (img.pix x i) (Y x)).1 else Y x)).2)).prod) = _
      have hcols : (List.range img.width).map
            (fun x => (lineA ib ((List.range' (i + 1) n).map (fun v => img.pix x v)) (i + 1)
              (if x < img.width then (stepAgg ib i (img.pix x i) (Y x)).1 else Y x)).2)
          = (List.range img.width).map
            (fun x => (lineA ib ((List.range' (i + 1) n).map (fun v => img.pix x v)) (i + 1)
              (stepAgg ib i (img.pix x i) (Y x)).1).2) := by
        apply List.map_congr_left
        intro x hx
        rw [if_pos (List.mem_range.mp hx)]
      have hfull : (List.range img.width).map
            (fun x => (lineA ib (img.pix x i :: (List.range' (i + 1) n).map (fun v => img.pix x v))
              i (Y x)).2)
          = (List.range img.width).map
            (fun x => (stepAgg ib i (img.pix x i) (Y x)).2
              * (lineA ib ((List.range' (i + 1) n).map (fun v => img.pix x v)) (i + 1)
                  (stepAgg ib i (img.pix x i) (Y x)).1).2) := by
        apply List.map_congr_left
        intro x _
        rfl
      rw [hcols, hfull, List.prod_map_mul, mul_mul_mul_comm]

theorem colloop_agg : ∀ (n i : Nat) (Y : Nat → CurrentStride),
    forLoopA colCloseA n i Y
      = (Y, ((List.range' i n).map (fun x => closeAgg (Y x))).prod) := by
  intro n
  induction n with
  | zero =>
    intro i Y
    rfl
  | succ n ihn =>
    intro i Y
    show (fun p => (fun q => (q.1, p.2 * q.2)) (forLoopA colCloseA n (i + 1) p.1))
        (colCloseA Y i) = _
    show ((forLoopA colCloseA n (i + 1) Y).1,
        closeAgg (Y i) * (forLoopA colCloseA n (i + 1) Y).2) = _
    rw [ihn, range'_succ_eq, List.map_cons, List.prod_cons]

/-- The aggregate of the whole scan is the product of the independent full-line
aggregates of all rows and all columns. -/
theorem phase1Agg_eq (img : Image) (ib : Bool) :
    phase1Agg img ib =
      ((List.range img.height).map (fun y => lineFullAgg ib (rowList img y))).prod
        * ((List.range img.width).map (fun x => lineFullAgg ib (colList img x))).prod := by
  unfold phase1Agg
  rw [yloop_decomp]
  have hcol : ∀ x, (List.range' 0 img.height).map (fun v => img.pix x v) = colList img x := by
    intro x
    rw [colList, List.range_eq_range']
  have hrows : ((List.range' 0 img.height).map (fun v => lineFullAgg ib (rowList img v))).prod
      = ((List.range img.height).map (fun y => lineFullAgg ib (rowList img y))).prod := by
    rw [List.range_eq_range']
  cases ib with
  | true =>
    show ((List.range' 0 img.height).map (fun v => lineFullAgg true (rowList img v))).prod
        * ((List.range img.width).map
            (fun x => (lineA true ((List.range' 0 img.height).map (fun v => img.pix x v)) 0
              ((fun _ => dummyCS) x)).2)).prod = _
    rw [hrows]
    have hc : (List.range img.width).map
          (fun x => (lineA true ((List.range' 0 img.height).map (fun v => img.pix x v)) 0
            ((fun _ => dummyCS) x)).2)
        = (List.range img.width).map (fun x => lineFullAgg true (colList img x)) := by
      apply List.map_congr_left
      intro x _
      rw [hcol x]
      rfl
    rw [hc]
  | false =>
    show (((List.range' 0 img.height).map (fun v => lineFullAgg false (rowList img v))).prod
        * ((List.range img.width).map
            (fun x => (lineA false ((List.range' 0 img.height).map (fun v => img.pix x v)) 0
              ((fun _ => dummyCS) x)).2)).prod)
        * (forLoopA colCloseA img.width 0
            (fun x => if x < img.width
              then (lineA false ((List.range' 0 img.height).map (fun v => img.pix x v)) 0
                ((fun _ => dummyCS) x)).1
              else (fun _ => dummyCS) x)).2 = _
    rw [colloop_agg, hrows]
    have hclose : (List.range' 0 img.width).map
          (fun x => closeAgg (if x < img.width
            then (lineA false ((List.range' 0 img.height).map (fun v => img.pix x v)) 0
              ((fun _ => dummyCS) x)).1
            else (fun _ => dummyCS) x))
        = (List.range img.width).map
          (fun x => closeAgg ((lineA false (colList img x) 0 dummyCS).1)) := by
      rw [← List.range_eq_range', ← List.range_eq_range']
      apply List.map_congr_left
      intro x hx
      rw [if_pos (List.mem_range.mp hx)]
      rfl
    have hscan : (List.range img.width).map
          (fun x => (lineA false ((List.range' 0 img.height).map (fun v => img.pix x v)) 0
            ((fun _ => dummyCS) x)).2)
        = (List.range img.width).map
          (fun x => (lineA false (colList img x) 0 dummyCS).2) := by
      apply List.map_congr_left
      intro x _
      rw [hcol x]
    rw [hclose, hscan, mul_assoc, ← List.prod_map_mul]
    have hmerge : (List.range img.width).map
          (fun x => (lineA false (colList img x) 0 dummyCS).2
            * closeAgg ((lineA false (colList img x) 0 dummyCS).1))
        = (List.range img.width).map (fun x => lineFullAgg false (colList img x)) := by
      apply List.map_congr_left
      intro x _
      rfl
    rw [hmerge]

/-!
The scan characterised by checked runs: disproof and candidate sets.
-/

/-- Whether some checked run of the line has length exactly 1. -/
def lineDisproves (ib : Bool) (l : List Rgba) : Bool :=
  (checkedRuns ib l).any (fun r => r.2 == 1)

/-- The run lengths the scan of this line inserts: lengths of checked runs that
are not 1 and whose color is not fully transparent. -/
def lineCands (ib : Bool) (l : List Rgba) : Finset Nat :=
  (checkedRuns ib l).foldr
    (fun r acc => if r.2 ≠ 1 ∧ 0 < r.2 ∧ 0 < r.1.a then insert r.2 acc else acc) ∅

/-- Whether the scan of the whole frame hits the disproof exit. -/
def imgDisproves (img : Image) (ib : Bool) : Bool :=
  ((List.range img.height).any (fun y => lineDisproves ib (rowList img y)))
    || ((List.range img.width).any (fun x => lineDisproves ib (colList img x)))

/-- All run lengths the scan of the whole frame inserts. -/
def imgCands (img : Image) (ib : Bool) : Finset Nat :=
  ((List.range img.height).foldr (fun y acc => lineCands ib (rowList img y) ∪ acc) ∅)
    ∪ ((List.range img.width).foldr (fun x acc => lineCands ib (colList img x) ∪ acc) ∅)

theorem runsProd_bad (rs : List (Rgba × Nat)) :
    ((rs.map closeRun).prod).bad = rs.any (fun r => r.2 == 1) := by
  induction rs with
  | nil => rfl
  | cons r rest ih =>
    rw [List.map_cons, List.prod_cons, Agg.mul_bad, ih]
    rfl

theorem runsProd_found (rs : List (Rgba × Nat)) :
    ((rs.map closeRun).prod).found
      = rs.foldr
          (fun r acc => if r.2 ≠ 1 ∧ 0 < r.2 ∧ 0 < r.1.a then insert r.2 acc else acc) ∅ := by
  induction rs with
  | nil => rfl
  | cons r rest ih =>
    rw [List.map_cons, List.prod_cons, Agg.mul_found, ih, List.foldr_cons]
    by_cases hcond : r.2 ≠ 1 ∧ 0 < r.2 ∧ 0 < r.1.a
    · rw [if_pos hcond]
      have hfr : (closeRun r).found = {r.2} := by
        unfold closeRun closeAgg
        rw [if_pos hcond]
      rw [hfr, ← Finset.insert_eq]
    · rw [if_neg hcond]
      have hfr : (closeRun r).found = ∅ := by
        unfold closeRun closeAgg
        rw [if_neg hcond]
      rw [hfr, Finset.empty_union]

theorem lineFullAgg_bad (ib : Bool) (l : List Rgba) :
    (lineFullAgg ib l).bad = lineDisproves ib l := by
  rw [lineFullAgg_eq, runsProd_bad]
  rfl

theorem lineFullAgg_found (ib : Bool) (l : List Rgba) :
    (lineFullAgg ib l).found = lineCands ib l := by
  rw [lineFullAgg_eq, runsProd_found]
  rfl

theorem listProd_bad (L : List Agg) : L.prod.bad = L.any (fun a => a.bad) := by
  induction L with
  | nil => rfl
  | cons a rest ih =>
    rw [List.prod_cons, Agg.mul_bad, ih]
    rfl

theorem listProd_found (L : List Agg) :
    L.prod.found = L.foldr (fun a acc => a.found ∪ acc) ∅ := by
  induction L with
  | nil => rfl
  | cons a rest ih =>
    rw [List.prod_cons, Agg.mul_found, ih, List.foldr_cons]

theorem any_map_eq {α β : Type} (l : List α) (f : α → β) (p : β → Bool) :
    (l.map f).any p = l.any (fun a => p (f a)) := by
  induction l with
  | nil => rfl
  | cons a rest ih =>
    rw [List.map_cons, List.any_cons, List.any_cons, ih]

theorem foldr_map_eq {α β γ : Type} (l : List α) (f : α → β) (g : β → γ → γ) (init : γ) :
    (l.map f).foldr g init = l.foldr (fun a acc => g (f a) acc) init := by
  induction l with
  | nil => rfl
  | cons a rest ih =>
    rw [List.map_cons, List.foldr_cons, List.foldr_cons, ih]

theorem phase1Agg_bad (img : Image) (ib : Bool) :
    (phase1Agg img ib).bad = imgDisproves img ib := by
  rw [phase1Agg_eq, Agg.mul_bad]
  unfold imgDisproves
  rw [listProd_bad, listProd_bad, any_map_eq, any_map_eq]
  have h1 : (fun y => (lineFullAgg ib (rowList img y)).bad)
      = fun y => lineDisproves ib (rowList img y) := by
    funext y
    exact lineFullAgg_bad ib (rowList img y)
  have h2 : (fun x => (lineFullAgg ib (colList img x)).bad)
      = fun x => lineDisproves ib (colList img x) := by
    funext x
    exact lineFullAgg_bad ib (colList img x)
  rw [h1, h2]

theorem phase1Agg_found (img : Image) (ib : Bool) :
    (phase1Agg img ib).found = imgCands img ib := by
  rw [phase1Agg_eq, Agg.mul_found]
  unfold imgCands
  rw [listProd_found, listProd_found, foldr_map_eq, foldr_map_eq]
  have h1 : (fun y acc => (lineFullAgg ib (rowList img y)).found ∪ acc)
      = fun y acc => lineCands ib (rowList img y) ∪ acc := by
    funext y acc
    rw [lineFullAgg_found]
  have h2 : (fun x acc => (lineFullAgg ib (colList img x)).found ∪ acc)
      = fun x acc => lineCands ib (colList img x) ∪ acc := by
    funext x acc
    rw [lineFullAgg_found]
  rw [h1, h2]

/-- Characterisation of the scan: it disproves exactly when some checked run of
some row or column has length 1, and otherwise adds to the incoming set exactly
the checked run lengths of positive length, length other than 1, and
non-transparent color. -/
theorem phase1_runs (img : Image) (s : Finset Nat) (ib : Bool) :
    get_smallest_stride_phase1 img s ib =
      if imgDisproves img ib then none else some (s ∪ imgCands img ib) := by
  rw [phase1_agg, phase1Agg_bad, phase1Agg_found]

/-!
Membership lemmas for the candidate sets, and the reducer characterisation.
-/

theorem mem_foldr_insert (rs : List (Rgba × Nat)) (k : Nat) :
    k ∈ rs.foldr
        (fun r acc => if r.2 ≠ 1 ∧ 0 < r.2 ∧ 0 < r.1.a then insert r.2 acc else acc)
        (∅ : Finset Nat)
      ↔ ∃ r ∈ rs, r.2 = k ∧ r.2 ≠ 1 ∧ 0 < r.2 ∧ 0 < r.1.a := by
  induction rs with
  | nil => simp
  | cons r rest ih =>
    rw [List.foldr_cons]
    by_cases hcond : r.2 ≠ 1 ∧ 0 < r.2 ∧ 0 < r.1.a
    · rw [if_pos hcond, Finset.mem_insert]
      constructor
      · intro h
        rcases h with h | h
        · exact ⟨r, List.mem_cons_self r rest, h.symm, hcond⟩
        · obtain ⟨r', hr', hprop⟩ := ih.mp h
          exact ⟨r', List.mem_cons_of_mem r hr', hprop⟩
      · rintro ⟨r', hr', hk, hprop⟩
        rcases List.mem_cons.mp hr' with h | h
        · subst h
          exact Or.inl hk.symm
        · exact Or.inr (ih.mpr ⟨r', h, hk, hprop⟩)
    · rw [if_neg hcond]
      rw [ih]
      constructor
      · rintro ⟨r', hr', hprop⟩
        exact ⟨r', List.mem_cons_of_mem r hr', hprop⟩
      · rintro ⟨r', hr', hk, hprop⟩
        rcases List.mem_cons.mp hr' with h | h
        · subst h
          exact absurd hprop hcond
        · exact ⟨r', h, hk, hprop⟩

theorem mem_lineCands {ib : Bool} {l : List Rgba} {k : Nat} :
    k ∈ lineCands ib l
      ↔ ∃ r ∈ checkedRuns ib l, r.2 = k ∧ r.2 ≠ 1 ∧ 0 < r.2 ∧ 0 < r.1.a :=
  mem_foldr_insert (checkedRuns ib l) k

theorem mem_foldr_union {α : Type} (L : List α) (f : α → Finset Nat) (k : Nat) :
    k ∈ L.foldr (fun a acc => f a ∪ acc) (∅ : Finset Nat) ↔ ∃ a ∈ L, k ∈ f a := by
  induction L with
  | nil => simp
  | cons a rest ih =>
    rw [List.foldr_cons, Finset.mem_union, ih]
    constructor
    · intro h
      rcases h with h | ⟨a', ha', hk⟩
      · exact ⟨a, List.mem_cons_self a rest, h⟩
      · exact ⟨a', List.mem_cons_of_mem a ha', hk⟩
    · rintro ⟨a', ha', hk⟩
      rcases List.mem_cons.mp ha' with h | h
      · subst h
        exact Or.inl hk
      · exact Or.inr ⟨a', h, hk⟩

theorem mem_imgCands {img : Image} {ib : Bool} {k : Nat} :
    k ∈ imgCands img ib
      ↔ (∃ y < img.height, k ∈ lineCands ib (rowList img y))
        ∨ (∃ x < img.width, k ∈ lineCands ib (colList img x)) := by
  unfold imgCands
  rw [Finset.mem_union, mem_foldr_union, mem_foldr_union]
  constructor
  · intro h
    rcases h with ⟨y, hy, hk⟩ | ⟨x, hx, hk⟩
    · exact Or.inl ⟨y, List.mem_range.mp hy, hk⟩
    · exact Or.inr ⟨x, List.mem_range.mp hx, hk⟩
  · intro h
    rcases h with ⟨y, hy, hk⟩ | ⟨x, hx, hk⟩
    · exact Or.inl ⟨y, List.mem_range.mpr hy, hk⟩
    · exact Or.inr ⟨x, List.mem_range.mpr hx, hk⟩

theorem lineDisproves_iff {ib : Bool} {l : List Rgba} :
    lineDisproves ib l = true ↔ ∃ r ∈ checkedRuns ib l, r.2 = 1 := by
  unfold lineDisproves
  rw [List.any_eq_true]
  constructor
  · rintro ⟨r, hr, hb⟩
    exact ⟨r, hr, by simpa using hb⟩
  · rintro ⟨r, hr, hb⟩
    exact ⟨r, hr, by simpa using hb⟩

theorem imgDisproves_iff {img : Image} {ib : Bool} :
    imgDisproves img ib = true
      ↔ (∃ y < img.height, lineDisproves ib (rowList img y) = true)
        ∨ (∃ x < img.width, lineDisproves ib (colList img x) = true) := by
  unfold imgDisproves
  rw [Bool.or_eq_true, List.any_eq_true, List.any_eq_true]
  constructor
  · intro h
    rcases h with ⟨y, hy, hk⟩ | ⟨x, hx, hk⟩
    · exact Or.inl ⟨y, List.mem_range.mp hy, hk⟩
    · exact Or.inr ⟨x, List.mem_range.mp hx, hk⟩
  · intro h
    rcases h with ⟨y, hy, hk⟩ | ⟨x, hx, hk⟩
    · exact Or.inl ⟨y, List.mem_range.mpr hy, hk⟩
    · exact Or.inr ⟨x, List.mem_range.mpr hx, hk⟩

theorem checkedRuns_mem_runsOf {ib : Bool} {l : List Rgba} :
    ∀ r ∈ checkedRuns ib l, r ∈ runsOf l := by
  intro r hr
  unfold checkedRuns at hr
  cases ib with
  | false => exact hr
  | true =>
    have h1 : r ∈ (runsOf l).dropLast :=
      (List.tail_sublist _).mem hr
    exact (List.dropLast_sublist _).mem h1

theorem sort_eq_min'_cons (S : Finset Nat) (hne : S.Nonempty) :
    ∃ rest, S.sort (· ≤ ·) = S.min' hne :: rest := by
  match hLs : S.sort (· ≤ ·) with
  | [] =>
    exfalso
    obtain ⟨a, ha⟩ := hne
    have hmem : a ∈ S.sort (· ≤ ·) := (Finset.mem_sort _).mpr ha
    rw [hLs] at hmem
    simp at hmem
  | m :: rest =>
    have hmS : m ∈ S := by
      have hmem : m ∈ S.sort (· ≤ ·) := by
        rw [hLs]
        exact List.mem_cons_self _ _
      exact (Finset.mem_sort _).mp hmem
    have hsorted := Finset.sort_sorted (· ≤ ·) S
    rw [hLs] at hsorted
    have hle : ∀ b ∈ rest, m ≤ b := (List.sorted_cons.mp hsorted).1
    have heq : m = S.min' hne := by
      apply le_antisymm
      · have hmin : S.min' hne ∈ S.sort (· ≤ ·) := (Finset.mem_sort _).mpr (S.min'_mem hne)
        rw [hLs] at hmin
        rcases List.mem_cons.mp hmin with h | h
        · omega
        · exact hle _ h
      · exact S.min'_le m hmS
    exact ⟨rest, by rw [heq]⟩

/-- The reducer on a set of positive candidates: the minimum is returned iff it
is at least 2 and divides every candidate; otherwise the sentinel 1. -/
theorem phase2_spec (S : Finset Nat) (hne : S.Nonempty) (h0 : 0 ∉ S) :
    get_smallest_stride_phase2 S =
      if 2 ≤ S.min' hne ∧ ∀ k ∈ S, k % S.min' hne = 0 then S.min' hne else 1 := by
  obtain ⟨rest, hL⟩ := sort_eq_min'_cons S hne
  have hmem : S.min' hne ∈ S := S.min'_mem hne
  have hm0 : ¬ S.min' hne = 0 := fun h => h0 (h ▸ hmem)
  have hrest : ∀ k ∈ rest, k ∈ S := by
    intro k hk
    have hmem' : k ∈ S.sort (· ≤ ·) := by
      rw [hL]
      exact List.mem_cons_of_mem _ hk
    exact (Finset.mem_sort _).mp hmem'
  unfold get_smallest_stride_phase2
  rw [hL]
  show (match (if S.min' hne = 0 then rest else S.min' hne :: rest) with
    | [] => 1
    | m :: others =>
      if m = 1 then 1 else if others.all (fun k => k % m == 0) then m else 1) = _
  rw [if_neg hm0]
  show (if S.min' hne = 1 then 1
      else if rest.all (fun k => k % S.min' hne == 0) then S.min' hne else 1) = _
  by_cases hm1 : S.min' hne = 1
  · rw [if_pos hm1, if_neg (fun h => absurd (hm1 ▸ h.1) (by omega))]
  · rw [if_neg hm1]
    by_cases hall : ∀ k ∈ S, k % S.min' hne = 0
    · have hrall : rest.all (fun k => k % S.min' hne == 0) = true := by
        rw [List.all_eq_true]
        intro k hk
        simpa using hall k (hrest k hk)
      rw [if_pos hrall, if_pos ⟨by omega, hall⟩]
    · have hrall : rest.all (fun k => k % S.min' hne == 0) = false := by
        rw [List.all_eq_false]
        push_neg at hall
        obtain ⟨k, hkS, hk⟩ := hall
        have hkne : k ≠ S.min' hne := by
          intro h
          exact hk (h ▸ Nat.mod_self _)
        have hkrest : k ∈ rest := by
          have hmem' : k ∈ S.sort (· ≤ ·) := (Finset.mem_sort _).mpr hkS
          rw [hL] at hmem'
          rcases List.mem_cons.mp hmem' with h | h
          · exact absurd h hkne
          · exact h
        exact ⟨k, hkrest, by simpa using hk⟩
      rw [if_neg (by rw [hrall]; exact Bool.false_ne_true),
        if_neg (fun h => hall h.2)]

/-- The reducer with the two defensive branches (smallest candidate 0 or 1)
removed. -/
def phase2_nodefense (strides : Finset Nat) : Nat :=
  match strides.sort (· ≤ ·) with
  | [] => 1
  | m :: others => if others.all (fun k => k % m == 0) then m else 1

theorem phase2_singleton (n : Nat) (hn : 2 ≤ n) :
    get_smallest_stride_phase2 {n} = n := by
  unfold get_smallest_stride_phase2
  rw [Finset.sort_singleton]
  have h0 : ¬ n = 0 := by omega
  have h1 : ¬ n = 1 := by omega
  simp [h0, h1]

/-!
Animation aggregation and upscaled images.
-/

theorem phase1_none_iff (img : Image) (s : Finset Nat) (ib : Bool) :
    get_smallest_stride_phase1 img s ib = none ↔ imgDisproves img ib = true := by
  rw [phase1_runs]
  by_cases h : imgDisproves img ib
  · simp [h]
  · simp [h]

theorem animGo_disproved :
    ∀ (pre : List Image) (f : Image) (post : List Image) (s : Finset Nat) (ib : Bool),
    imgDisproves f ib = true → animGo (pre ++ f :: post) s ib = 1 := by
  intro pre
  induction pre with
  | nil =>
    intro f post s ib hf
    show (match get_smallest_stride_phase1 f s ib with
      | none => 1
      | some s' => animGo post s' ib) = 1
    rw [(phase1_none_iff f s ib).mpr hf]
  | cons g pre' ih =>
    intro f post s ib hf
    show (match get_smallest_stride_phase1 g s ib with
      | none => 1
      | some s' => animGo (pre' ++ f :: post) s' ib) = 1
    match h : get_smallest_stride_phase1 g s ib with
    | none => rfl
    | some s' => exact ih f post s' ib hf

/-- Replicating every entry of a scan line `n` times. -/
def blow (n : Nat) (l : List Rgba) : List Rgba :=
  l.flatMap (fun c => List.replicate n c)

theorem map_div_blow (f : Nat → Rgba) (w n : Nat) (hn : 0 < n) :
    (List.range (w * n)).map (fun X => f (X / n))
      = (List.range w).flatMap (fun x => List.replicate n (f x)) := by
  induction w with
  | zero =>
    rw [Nat.zero_mul]
    rfl
  | succ w ih =>
    rw [show (w + 1) * n = w * n + n by ring, List.range_add,
      List.map_append, ih, List.range_succ, List.flatMap_append]
    congr 1
    rw [List.map_map]
    show (List.range n).map (fun j => f ((w * n + j) / n)) = _
    have hdiv : ∀ j ∈ List.range n, f ((w * n + j) / n) = f w := by
      intro j hj
      have hj' : j < n := List.mem_range.mp hj
      rw [show w * n + j = n * w + j by ring, Nat.mul_add_div hn,
        Nat.div_eq_of_lt hj', Nat.add_zero]
    rw [List.map_congr_left hdiv, List.map_const', List.length_range]
    show List.replicate n (f w) = List.replicate n (f w) ++ []
    rw [List.append_nil]

theorem rowList_upscale (img : Image) (n : Nat) (hn : 0 < n) (Y : Nat) :
    rowList (upscale img n) Y = blow n (rowList img (Y / n)) := by
  unfold rowList upscale blow
  show (List.range (img.width * n)).map (fun X => img.pix (X / n) (Y / n)) = _
  rw [map_div_blow (fun x => img.pix x (Y / n)) img.width n hn]
  rw [List.flatMap_map]

theorem colList_upscale (img : Image) (n : Nat) (hn : 0 < n) (X : Nat) :
    colList (upscale img n) X = blow n (colList img (X / n)) := by
  unfold colList upscale blow
  show (List.range (img.height * n)).map (fun Y => img.pix (X / n) (Y / n)) = _
  rw [map_div_blow (fun y => img.pix (X / n) y) img.height n hn]
  rw [List.flatMap_map]

theorem blow_head (n : Nat) (hn : 0 < n) (c : Rgba) (l : List Rgba) :
    (blow n (c :: l)).head? = some c := by
  unfold blow
  rw [List.flatMap_cons]
  match hn' : n with
  | 0 => omega
  | m + 1 =>
    rw [List.replicate_succ]
    rfl

theorem runsOf_blow (n : Nat) (hn : 0 < n) :
    ∀ l : List Rgba, l.Chain' (· ≠ ·) →
    runsOf (blow n l) = l.map (fun c => (c, n)) := by
  intro l
  induction l with
  | nil => intro _; rfl
  | cons c rest ih =>
    intro hchain
    have hblow : blow n (c :: rest) = List.replicate n c ++ blow n rest := by
      unfold blow
      rw [List.flatMap_cons]
    cases rest with
    | nil =>
      rw [hblow]
      show runsOf (List.replicate n c ++ blow n []) = [(c, n)]
      rw [show blow n [] = [] from rfl, List.append_nil, runsOf_replicate n c hn]
    | cons c' rest' =>
      have hcc : c ≠ c' := (List.chain'_cons.mp hchain).1
      have hchain' : (c' :: rest').Chain' (· ≠ ·) := (List.chain'_cons.mp hchain).2
      rw [hblow, runsOf_replicate_append n c (blow n (c' :: rest')) hn
        (by rw [blow_head n hn c' rest']; simp; exact fun h => hcc h.symm),
        ih hchain', List.map_cons, List.map_cons]
      rfl

theorem chain'_map_range (f : Nat → Rgba) (w : Nat)
    (h : ∀ i, i + 1 < w → f i ≠ f (i + 1)) :
    ((List.range w).map f).Chain' (· ≠ ·) := by
  rw [List.chain'_iff_get]
  intro i hi
  simp only [List.length_map, List.length_range] at hi
  simp only [List.get_map, List.get_range]
  exact h i (by omega)

theorem rowChain (img : Image) (had : adjacentDistinct img) (y : Nat)
    (hy : y < img.height) : (rowList img y).Chain' (· ≠ ·) := by
  unfold rowList
  apply chain'_map_range
  intro i hi
  exact ((had i (by omega) y hy).1) hi

theorem colChain (img : Image) (had : adjacentDistinct img) (x : Nat)
    (hx : x < img.width) : (colList img x).Chain' (· ≠ ·) := by
  unfold colList
  apply chain'_map_range
  intro i hi
  exact ((had x hx i (by omega)).2) hi

theorem checkedRuns_false (l : List Rgba) : checkedRuns false l = runsOf l := rfl

theorem upscale_row_runs (img : Image) (n : Nat) (hn : 0 < n)
    (had : adjacentDistinct img) (Y : Nat) (hY : Y < (upscale img n).height) :
    runsOf (rowList (upscale img n) Y)
      = (rowList img (Y / n)).map (fun c => (c, n)) := by
  have hYh : Y / n < img.height := by
    apply Nat.div_lt_of_lt_mul
    show Y < n * img.height
    rw [Nat.mul_comm]
    exact hY
  rw [rowList_upscale img n hn Y]
  exact runsOf_blow n hn _ (rowChain img had (Y / n) hYh)

theorem upscale_col_runs (img : Image) (n : Nat) (hn : 0 < n)
    (had : adjacentDistinct img) (X : Nat) (hX : X < (upscale img n).width) :
    runsOf (colList (upscale img n) X)
      = (colList img (X / n)).map (fun c => (c, n)) := by
  have hXw : X / n < img.width := by
    apply Nat.div_lt_of_lt_mul
    show X < n * img.width
    rw [Nat.mul_comm]
    exact hX
  rw [colList_upscale img n hn X]
  exact runsOf_blow n hn _ (colChain img had (X / n) hXw)

theorem upscale_not_disproved (img : Image) (n : Nat) (hn : 2 ≤ n)
    (had : adjacentDistinct img) :
    imgDisproves (upscale img n) false = false := by
  apply Bool.eq_false_iff.mpr
  intro htrue
  rcases imgDisproves_iff.mp htrue with ⟨Y, hY, hd⟩ | ⟨X, hX, hd⟩
  · obtain ⟨r, hr, hr1⟩ := lineDisproves_iff.mp hd
    rw [checkedRuns_false, upscale_row_runs img n (by omega) had Y hY] at hr
    obtain ⟨c, -, hc⟩ := List.mem_map.mp hr
    rw [← hc] at hr1
    simp at hr1
    omega
  · obtain ⟨r, hr, hr1⟩ := lineDisproves_iff.mp hd
    rw [checkedRuns_false, upscale_col_runs img n (by omega) had X hX] at hr
    obtain ⟨c, -, hc⟩ := List.mem_map.mp hr
    rw [← hc] at hr1
    simp at hr1
    omega

theorem upscale_cands (img : Image) (n : Nat) (hn : 2 ≤ n)
    (had : adjacentDistinct img)
    (hop : ∃ x < img.width, ∃ y < img.height, 0 < (img.pix x y).a) :
    imgCands (upscale img n) false = {n} := by
  apply Finset.Subset.antisymm
  · intro k hk
    rw [Finset.mem_singleton]
    rcases mem_imgCands.mp hk with ⟨Y, hY, hkl⟩ | ⟨X, hX, hkl⟩
    · obtain ⟨r, hr, hrk, -⟩ := mem_lineCands.mp hkl
      rw [checkedRuns_false, upscale_row_runs img n (by omega) had Y hY] at hr
      obtain ⟨c, -, hc⟩ := List.mem_map.mp hr
      rw [← hrk, ← hc]
    · obtain ⟨r, hr, hrk, -⟩ := mem_lineCands.mp hkl
      rw [checkedRuns_false, upscale_col_runs img n (by omega) had X hX] at hr
      obtain ⟨c, -, hc⟩ := List.mem_map.mp hr
      rw [← hrk, ← hc]
  · rw [Finset.singleton_subset_iff]
    obtain ⟨x0, hx0, y0, hy0, ha⟩ := hop
    have hY0 : y0 * n < (upscale img n).height := by
      show y0 * n < img.height * n
      exact (Nat.mul_lt_mul_right (by omega)).mpr hy0
    have hdiv : y0 * n / n = y0 := Nat.mul_div_cancel y0 (by omega)
    apply mem_imgCands.mpr
    apply Or.inl
    refine ⟨y0 * n, hY0, ?_⟩
    apply mem_lineCands.mpr
    refine ⟨(img.pix x0 y0, n), ?_, rfl, by omega, by omega, ha⟩
    rw [checkedRuns_false, upscale_row_runs img n (by omega) had (y0 * n) hY0, hdiv]
    apply List.mem_map.mpr
    refine ⟨img.pix x0 y0, ?_, rfl⟩
    unfold rowList
    apply List.mem_map.mpr
    exact ⟨x0, List.mem_range.mpr hx0, rfl⟩

theorem lineA_state_le (ib : Bool) (l : List Rgba) :
    ((lineA ib l 0 dummyCS).1).stride ≤ l.length := by
  rw [lineA_runs]
  show (runsState (runsOf l)).stride ≤ l.length
  unfold runsState
  match h : (runsOf l).getLast? with
  | none =>
    show dummyCS.stride ≤ l.length
    show 0 ≤ l.length
    omega
  | some r =>
    show r.2 ≤ l.length
    exact runsOf_len_le l r (List.mem_of_getLast?_eq_some h)

theorem scan_out_of_range (img : Image) (ib : Bool) (x : Nat)
    (hx : img.width ≤ x) :
    (forLoopA (scanRowA img ib) img.height 0 (fun _ => dummyCS)).1 x = dummyCS := by
  rw [yloop_decomp]
  show (if x < img.width then _ else (fun _ => dummyCS) x) = dummyCS
  rw [if_neg (by omega)]

theorem imgCands_ge_two {img : Image} {ib : Bool} {k : Nat}
    (hk : k ∈ imgCands img ib) : 2 ≤ k := by
  rcases mem_imgCands.mp hk with ⟨y, -, hkl⟩ | ⟨x, -, hkl⟩ <;>
    · obtain ⟨r, -, hrk, h1, hpos, -⟩ := mem_lineCands.mp hkl
      omega

theorem imgCands_le_max {img : Image} {ib : Bool} {k : Nat}
    (hk : k ∈ imgCands img ib) : k ≤ max img.width img.height := by
  rcases mem_imgCands.mp hk with ⟨y, -, hkl⟩ | ⟨x, -, hkl⟩
  · obtain ⟨r, hr, hrk, -⟩ := mem_lineCands.mp hkl
    have hmem := checkedRuns_mem_runsOf r hr
    have hle := runsOf_len_le _ r hmem
    have hlen : (rowList img y).length = img.width := by
      unfold rowList
      rw [List.length_map, List.length_range]
    rw [hlen] at hle
    omega
  · obtain ⟨r, hr, hrk, -⟩ := mem_lineCands.mp hkl
    have hmem := checkedRuns_mem_runsOf r hr
    have hle := runsOf_len_le _ r hmem
    have hlen : (colList img x).length = img.height := by
      unfold colList
      rw [List.length_map, List.length_range]
    rw [hlen] at hle
    omega

theorem phase2_eq_nodefense (S : Finset Nat) (h2 : ∀ k ∈ S, 2 ≤ k) :
    get_smallest_stride_phase2 S = phase2_nodefense S := by
  unfold get_smallest_stride_phase2 phase2_nodefense
  set L : List Nat := S.sort (· ≤ ·) with hLdef
  match hL : L with
  | [] => rfl
  | m :: rest =>
    have hmS : m ∈ S := by
      apply (Finset.mem_sort (α := Nat) (· ≤ ·)).mp
      rw [← hLdef]
      exact List.mem_cons_self _ _
    have hm2 : 2 ≤ m := h2 m hmS
    show (match (if m = 0 then rest else m :: rest) with
      | [] => 1
      | m' :: others =>
        if m' = 1 then 1 else if others.all (fun k => k % m' == 0) then m' else 1) = _
    rw [if_neg (by omega : ¬ m = 0)]
    show (if m = 1 then 1 else if rest.all (fun k => k % m == 0) then m else 1) = _
    rw [if_neg (by omega : ¬ m = 1)]


theorem sort_4_8_12 : Finset.sort (· ≤ ·) ({4, 8, 12} : Finset Nat) = [4, 8, 12] := by
  have ha1 : ∀ b ∈ ({8, 12} : Finset Nat), 4 ≤ b := by decide
  have ha2 : (4 : Nat) ∉ ({8, 12} : Finset Nat) := by decide
  have hb1 : ∀ b ∈ ({12} : Finset Nat), 8 ≤ b := by decide
  have hb2 : (8 : Nat) ∉ ({12} : Finset Nat) := by decide
  rw [show ({4, 8, 12} : Finset Nat) = insert 4 {8, 12} from rfl,
    Finset.sort_insert _ ha1 ha2,
    show ({8, 12} : Finset Nat) = insert 8 {12} from rfl,
    Finset.sort_insert _ hb1 hb2, Finset.sort_singleton]

theorem sort_4_6 : Finset.sort (· ≤ ·) ({4, 6} : Finset Nat) = [4, 6] := by
  have ha1 : ∀ b ∈ ({6} : Finset Nat), 4 ≤ b := by decide
  have ha2 : (4 : Nat) ∉ ({6} : Finset Nat) := by decide
  rw [show ({4, 6} : Finset Nat) = insert 4 {6} from rfl,
    Finset.sort_insert _ ha1 ha2, Finset.sort_singleton]

theorem sort_4_8 : Finset.sort (· ≤ ·) ({4, 8} : Finset Nat) = [4, 8] := by
  have ha1 : ∀ b ∈ ({8} : Finset Nat), 4 ≤ b := by decide
  have ha2 : (4 : Nat) ∉ ({8} : Finset Nat) := by decide
  rw [show ({4, 8} : Finset Nat) = insert 4 {8} from rfl,
    Finset.sort_insert _ ha1 ha2, Finset.sort_singleton]

theorem phase2_4_8_12 : get_smallest_stride_phase2 {4, 8, 12} = 4 := by
  unfold get_smallest_stride_phase2
  rw [sort_4_8_12]
  rfl

theorem phase2_4_6 : get_smallest_stride_phase2 {4, 6} = 1 := by
  unfold get_smallest_stride_phase2
  rw [sort_4_6]
  rfl

theorem phase2_empty : get_smallest_stride_phase2 ∅ = 1 := by
  unfold get_smallest_stride_phase2
  rw [Finset.sort_empty]

theorem phase2_4_8 : get_smallest_stride_phase2 {4, 8} = 4 := by
  unfold get_smallest_stride_phase2
  rw [sort_4_8]
  rfl

/-!
The claims.
-/

/-- Claim C1: for every non-empty candidate set (positive run lengths, per the
data model), the reducer sorts ascending and returns the smallest candidate `m`
exactly when `m ≥ 2` and every candidate is a multiple of `m`; otherwise it
returns the sentinel 1 rather than falling back to a smaller common divisor.
In particular `{4, 8, 12}` reduces to 4 and `{4, 6}` to 1. -/
theorem claim_C1 :
    (∀ (S : Finset Nat) (hne : S.Nonempty), 0 ∉ S →
      get_smallest_stride_phase2 S =
        if 2 ≤ S.min' hne ∧ ∀ k ∈ S, k % S.min' hne = 0 then S.min' hne else 1)
    ∧ get_smallest_stride_phase2 {4, 8, 12} = 4
    ∧ get_smallest_stride_phase2 {4, 6} = 1 :=
  ⟨fun S hne h0 => phase2_spec S hne h0, phase2_4_8_12, phase2_4_6⟩

/-- Witness for C1 at the concrete set `{4, 8, 12}`. -/
theorem claim_C1_witness :
    get_smallest_stride_phase2 {4, 8, 12} =
      if 2 ≤ ({4, 8, 12} : Finset Nat).min' ⟨4, by decide⟩
          ∧ ∀ k ∈ ({4, 8, 12} : Finset Nat),
              k % ({4, 8, 12} : Finset Nat).min' ⟨4, by decide⟩ = 0
      then ({4, 8, 12} : Finset Nat).min' ⟨4, by decide⟩ else 1 :=
  claim_C1.1 {4, 8, 12} ⟨4, by decide⟩ (by decide)

/-- Claim C2: with `ignore_border` off, an image containing any maximal
horizontal or vertical run of length exactly 1 makes the scan report disproof
(`none`), and the overall detected stride is the sentinel 1 — for every
incoming candidate set, any colors and alphas, and any other evidence. -/
theorem claim_C2 (img : Image) (s : Finset Nat)
    (h : (∃ y < img.height, ∃ r ∈ runsOf (rowList img y), r.2 = 1)
       ∨ (∃ x < img.width, ∃ r ∈ runsOf (colList img x), r.2 = 1)) :
    get_smallest_stride_phase1 img s false = none
      ∧ get_smallest_stride img false = 1 := by
  have hd : imgDisproves img false = true := by
    apply imgDisproves_iff.mpr
    rcases h with ⟨y, hy, r, hr, h1⟩ | ⟨x, hx, r, hr, h1⟩
    · exact Or.inl ⟨y, hy, lineDisproves_iff.mpr ⟨r, hr, h1⟩⟩
    · exact Or.inr ⟨x, hx, lineDisproves_iff.mpr ⟨r, hr, h1⟩⟩
  refine ⟨(phase1_none_iff img s false).mpr hd, ?_⟩
  unfold get_smallest_stride
  rw [(phase1_none_iff img ∅ false).mpr hd]

/-- A 2×2 image whose top-left pixel is a singleton run of a unique color. -/
def imgC2w : Image :=
  ⟨2, 2, fun x y => if x = 0 ∧ y = 0 then ⟨9, 9, 9, 9⟩ else ⟨2, 2, 2, 255⟩⟩

/-- Witness for C2 at a concrete image with a singleton run. -/
theorem claim_C2_witness :
    get_smallest_stride_phase1 imgC2w ∅ false = none
      ∧ get_smallest_stride imgC2w false = 1 :=
  claim_C2 imgC2w ∅ (by decide)

/-- Counterexample for C7: on an empty frame sequence the first-frame-only
path computes 0, not the claimed sentinel 1. -/
theorem claim_C7_cex :
    first_frame_min_stride [] false ≠ 1 ∧ first_frame_min_stride [] true ≠ 1 := by
  decide

/-- Claim C7 (amended): in first-frame-only mode an empty frame sequence
yields 0, which the caller's `min_stride <= 1` test treats as a failure; the
scanner is never invoked (the value is produced by the `else` arm alone). -/
theorem claim_C7 :
    ∀ ib : Bool, first_frame_min_stride [] ib = 0
      ∧ detection_failed (first_frame_min_stride [] ib) :=
  fun _ => ⟨rfl, Nat.zero_le 1⟩

/-- A 1×1 image whose only pixel is fully transparent. -/
def imgC3cex : Image := ⟨1, 1, fun _ _ => ⟨0, 0, 0, 0⟩⟩

/-- Counterexample for C3: a 1×1 fully transparent original satisfies the
claim's hypotheses (adjacent pixels all distinct, vacuously) with n = 2, yet
stride detection on the 2×-upscaled image returns 1, not 2, because fully
transparent runs contribute no candidates and the candidate set stays empty. -/
theorem claim_C3_cex :
    adjacentDistinct imgC3cex
      ∧ get_smallest_stride (upscale imgC3cex 2) false = 1
      ∧ get_smallest_stride (upscale imgC3cex 2) false ≠ 2 := by
  have h : get_smallest_stride (upscale imgC3cex 2) false = 1 := by
    unfold get_smallest_stride
    rw [show get_smallest_stride_phase1 (upscale imgC3cex 2) ∅ false = some ∅ by decide]
    exact phase2_empty
  exact ⟨by decide, h, by rw [h]; decide⟩

/-- Claim C3 (amended): for every original image with at least one pixel of
nonzero alpha, every n ≥ 2, and no two adjacent original pixels sharing a
color, stride detection on the n×n block replication returns exactly n. -/
theorem claim_C3 (img : Image) (n : Nat) (hn : 2 ≤ n) (had : adjacentDistinct img)
    (hop : ∃ x < img.width, ∃ y < img.height, 0 < (img.pix x y).a) :
    get_smallest_stride (upscale img n) false = n := by
  have hnd := upscale_not_disproved img n hn had
  have hca := upscale_cands img n hn had hop
  unfold get_smallest_stride
  rw [phase1_runs, if_neg (by rw [hnd]; exact Bool.false_ne_true)]
  show get_smallest_stride_phase2 (∅ ∪ imgCands (upscale img n) false) = n
  rw [Finset.empty_union, hca]
  exact phase2_singleton n hn

/-- A 2×1 image with two distinct colors, both with nonzero alpha. -/
def imgC3w : Image :=
  ⟨2, 1, fun x _ => if x = 0 then ⟨1, 1, 1, 255⟩ else ⟨2, 2, 2, 255⟩⟩

/-- Witness for C3 (amended) at a concrete 2×1 image and n = 3. -/
theorem claim_C3_witness : get_smallest_stride (upscale imgC3w 3) false = 3 :=
  claim_C3 imgC3w 3 (by decide) (by decide) (by decide)

/-- The animation frames used for the concrete part of C4, and a frame that
disproves via a singleton run. -/
def rgbaC4 : Rgba := ⟨1, 2, 3, 255⟩

/-- A 2×2 frame containing a singleton run of a unique color. -/
def imgC4bad : Image :=
  ⟨2, 2, fun x y => if x = 0 ∧ y = 0 then ⟨9, 9, 9, 9⟩ else ⟨3, 3, 3, 255⟩⟩

/-- Claim C4: in full mode the scanner runs over the frames in order with one
shared candidate set; the three constant frames with individual candidate sets
{4,8}, {4}, {8} aggregate to 4, and any frame whose scan disproves forces the
overall sentinel 1 no matter what comes before or after it. -/
theorem claim_C4 :
    (get_smallest_stride_phase1 (constImg 8 4 rgbaC4) ∅ false = some {4, 8}
      ∧ get_smallest_stride_phase1 (constImg 4 4 rgbaC4) ∅ false = some {4}
      ∧ get_smallest_stride_phase1 (constImg 8 8 rgbaC4) ∅ false = some {8}
      ∧ get_smallest_stride_from_animation
          [constImg 8 4 rgbaC4, constImg 4 4 rgbaC4, constImg 8 8 rgbaC4] false = 4)
    ∧ (∀ (pre : List Image) (f : Image) (post : List Image) (ib : Bool),
        get_smallest_stride_phase1 f ∅ ib = none →
        get_smallest_stride_from_animation (pre ++ f :: post) ib = 1) := by
  constructor
  · refine ⟨by decide, by decide, by decide, ?_⟩
    unfold get_smallest_stride_from_animation
    show (match get_smallest_stride_phase1 (constImg 8 4 rgbaC4) ∅ false with
      | none => 1
      | some s' => animGo [constImg 4 4 rgbaC4, constImg 8 8 rgbaC4] s' false) = 4
    rw [show get_smallest_stride_phase1 (constImg 8 4 rgbaC4) ∅ false = some {4, 8}
      by decide]
    show (match get_smallest_stride_phase1 (constImg 4 4 rgbaC4) {4, 8} false with
      | none => 1
      | some s' => animGo [constImg 8 8 rgbaC4] s' false) = 4
    rw [show get_smallest_stride_phase1 (constImg 4 4 rgbaC4) {4, 8} false = some {4, 8}
      by decide]
    show (match get_smallest_stride_phase1 (constImg 8 8 rgbaC4) {4, 8} false with
      | none => 1
      | some s' => animGo [] s' false) = 4
    rw [show get_smallest_stride_phase1 (constImg 8 8 rgbaC4) {4, 8} false = some {4, 8}
      by decide]
    exact phase2_4_8
  · intro pre f post ib hf
    unfold get_smallest_stride_from_animation
    exact animGo_disproved pre f post ∅ ib ((phase1_none_iff f ∅ ib).mp hf)

/-- Witness for C4: a disproving middle frame forces 1 despite the evidence of
the surrounding frames. -/
theorem claim_C4_witness :
    get_smallest_stride_from_animation
      [constImg 8 4 rgbaC4, imgC4bad, constImg 8 8 rgbaC4] false = 1 :=
  claim_C4.2 [constImg 8 4 rgbaC4] imgC4bad [constImg 8 8 rgbaC4] false (by decide)

theorem checkedRuns_true (l : List Rgba) :
    checkedRuns true l = ((runsOf l).dropLast).tail := rfl

theorem mem_imgCands_runs {img : Image} {ib : Bool} {k : Nat} :
    k ∈ imgCands img ib
      ↔ (∃ y < img.height, ∃ r ∈ checkedRuns ib (rowList img y),
           r.2 = k ∧ r.2 ≠ 1 ∧ 0 < r.2 ∧ 0 < r.1.a)
        ∨ (∃ x < img.width, ∃ r ∈ checkedRuns ib (colList img x),
           r.2 = k ∧ r.2 ≠ 1 ∧ 0 < r.2 ∧ 0 < r.1.a) := by
  rw [mem_imgCands]
  constructor
  · intro h
    rcases h with ⟨y, hy, hk⟩ | ⟨x, hx, hk⟩
    · exact Or.inl ⟨y, hy, mem_lineCands.mp hk⟩
    · exact Or.inr ⟨x, hx, mem_lineCands.mp hk⟩
  · intro h
    rcases h with ⟨y, hy, hk⟩ | ⟨x, hx, hk⟩
    · exact Or.inl ⟨y, hy, mem_lineCands.mpr hk⟩
    · exact Or.inr ⟨x, hx, mem_lineCands.mpr hk⟩

/-- Claim C5: with `ignore_border` on, the first run and the last run of every
row and of every column are exempt from both the length-1 disproof check and
the candidate insertion (`(runsOf l).dropLast.tail` drops exactly them), while
every interior run is still subject to both: disproof happens exactly for an
interior singleton run, and the inserted candidates are exactly the interior
run lengths of positive length ≠ 1 with nonzero alpha. -/
theorem claim_C5 (img : Image) (s : Finset Nat) :
    (get_smallest_stride_phase1 img s true = none
      ↔ (∃ y < img.height, ∃ r ∈ ((runsOf (rowList img y)).dropLast).tail, r.2 = 1)
        ∨ (∃ x < img.width, ∃ r ∈ ((runsOf (colList img x)).dropLast).tail, r.2 = 1))
    ∧ (∀ s', get_smallest_stride_phase1 img s true = some s' →
        ∀ k, k ∈ s' ↔ k ∈ s
          ∨ ((∃ y < img.height, ∃ r ∈ ((runsOf (rowList img y)).dropLast).tail,
                r.2 = k ∧ r.2 ≠ 1 ∧ 0 < r.2 ∧ 0 < r.1.a)
             ∨ (∃ x < img.width, ∃ r ∈ ((runsOf (colList img x)).dropLast).tail,
                r.2 = k ∧ r.2 ≠ 1 ∧ 0 < r.2 ∧ 0 < r.1.a))) := by
  constructor
  · rw [phase1_none_iff, imgDisproves_iff]
    constructor
    · intro h
      rcases h with ⟨y, hy, hd⟩ | ⟨x, hx, hd⟩
      · obtain ⟨r, hr, h1⟩ := lineDisproves_iff.mp hd
        exact Or.inl ⟨y, hy, r, hr, h1⟩
      · obtain ⟨r, hr, h1⟩ := lineDisproves_iff.mp hd
        exact Or.inr ⟨x, hx, r, hr, h1⟩
    · intro h
      rcases h with ⟨y, hy, r, hr, h1⟩ | ⟨x, hx, r, hr, h1⟩
      · exact Or.inl ⟨y, hy, lineDisproves_iff.mpr ⟨r, hr, h1⟩⟩
      · exact Or.inr ⟨x, hx, lineDisproves_iff.mpr ⟨r, hr, h1⟩⟩
  · intro s' hs' k
    rw [phase1_runs] at hs'
    by_cases hd : imgDisproves img true
    · rw [if_pos hd] at hs'
      exact absurd hs' (by simp)
    · rw [if_neg hd] at hs'
      have hset : s' = s ∪ imgCands img true := by
        injection hs' with h
        exact h.symm
      rw [hset, Finset.mem_union, mem_imgCands_runs]
      exact Iff.rfl

/-- A 5×1 image whose middle row run is an interior singleton. -/
def imgC5bad : Image :=
  ⟨5, 1, fun x _ =>
    if x ≤ 1 then ⟨1, 1, 1, 255⟩ else if x = 2 then ⟨2, 2, 2, 255⟩ else ⟨3, 3, 3, 255⟩⟩

/-- Witness for C5: an interior singleton run disproves even with
`ignore_border` on. -/
theorem claim_C5_witness :
    get_smallest_stride_phase1 imgC5bad ∅ true = none :=
  (claim_C5 imgC5bad ∅).1.mpr (by decide)

/-- Claim C6: a run whose color has alpha 0 is never inserted into the
candidate set (every newly inserted length is the length of some maximal run
with positive alpha), for every image and both settings of `ignore_border`;
yet a fully transparent singleton run still triggers disproof exactly like an
opaque one (`ignore_border` off). -/
theorem claim_C6 :
    (∀ (img : Image) (ib : Bool) (s s' : Finset Nat),
      get_smallest_stride_phase1 img s ib = some s' →
      ∀ k ∈ s', k ∈ s
        ∨ (∃ y < img.height, ∃ r ∈ runsOf (rowList img y), 0 < r.1.a ∧ r.2 = k)
        ∨ (∃ x < img.width, ∃ r ∈ runsOf (colList img x), 0 < r.1.a ∧ r.2 = k))
    ∧ (∀ (img : Image) (s : Finset Nat),
        ((∃ y < img.height, ∃ r ∈ runsOf (rowList img y), r.1.a = 0 ∧ r.2 = 1)
          ∨ (∃ x < img.width, ∃ r ∈ runsOf (colList img x), r.1.a = 0 ∧ r.2 = 1)) →
        get_smallest_stride_phase1 img s false = none) := by
  constructor
  · intro img ib s s' hs' k hk
    rw [phase1_runs] at hs'
    by_cases hd : imgDisproves img ib
    · rw [if_pos hd] at hs'
      exact absurd hs' (by simp)
    · rw [if_neg hd] at hs'
      have hset : s' = s ∪ imgCands img ib := by
        injection hs' with h
        exact h.symm
      rw [hset, Finset.mem_union] at hk
      rcases hk with hk | hk
      · exact Or.inl hk
      · rcases mem_imgCands_runs.mp hk with ⟨y, hy, r, hr, hrk, -, -, ha⟩
          | ⟨x, hx, r, hr, hrk, -, -, ha⟩
        · exact Or.inr (Or.inl ⟨y, hy, r, checkedRuns_mem_runsOf r hr, ha, hrk⟩)
        · exact Or.inr (Or.inr ⟨x, hx, r, checkedRuns_mem_runsOf r hr, ha, hrk⟩)
  · intro img s h
    apply (phase1_none_iff img s false).mpr
    apply imgDisproves_iff.mpr
    rcases h with ⟨y, hy, r, hr, -, h1⟩ | ⟨x, hx, r, hr, -, h1⟩
    · exact Or.inl ⟨y, hy, lineDisproves_iff.mpr ⟨r, hr, h1⟩⟩
    · exact Or.inr ⟨x, hx, lineDisproves_iff.mpr ⟨r, hr, h1⟩⟩

/-- A 4×4 constant image with positive alpha. -/
def imgC6a : Image := constImg 4 4 ⟨1, 1, 1, 7⟩

/-- A 2×2 image whose top-left pixel is a fully transparent singleton run. -/
def imgC6b : Image :=
  ⟨2, 2, fun x y => if x = 0 ∧ y = 0 then ⟨5, 5, 5, 0⟩ else ⟨2, 2, 2, 255⟩⟩

/-- Witness for C6: concrete instances of both conjuncts. -/
theorem claim_C6_witness :
    (4 ∈ (∅ : Finset Nat)
      ∨ (∃ y < imgC6a.height, ∃ r ∈ runsOf (rowList imgC6a y), 0 < r.1.a ∧ r.2 = 4)
      ∨ (∃ x < imgC6a.width, ∃ r ∈ runsOf (colList imgC6a x), 0 < r.1.a ∧ r.2 = 4))
    ∧ get_smallest_stride_phase1 imgC6b ∅ false = none :=
  ⟨claim_C6.1 imgC6a false ∅ {4} (by decide) 4 (by decide),
   claim_C6.2 imgC6b ∅ (by decide)⟩

/-- A 2×2 image all of whose pixels are fully transparent. -/
def imgC8cex : Image := constImg 2 2 ⟨0, 0, 0, 0⟩

/-- Counterexample for C8: a 2×2 (non-degenerate) fully transparent frame is
not disproved and still returns an empty candidate set. -/
theorem claim_C8_cex :
    get_smallest_stride_phase1 imgC8cex ∅ false = some ∅
      ∧ imgC8cex.width = 2 ∧ imgC8cex.height = 2 := by
  refine ⟨by decide, rfl, rfl⟩

/-- Claim C8 (amended): a degenerate 0×0 or 1×1 image always yields the
overall sentinel 1; and a non-disproved frame returns an empty candidate set
exactly in the degenerate-like situations where every checked run is fully
transparent (so also for some non-degenerate frames). -/
theorem claim_C8 :
    (∀ (img : Image) (ib : Bool),
      (img.width = 0 ∧ img.height = 0) ∨ (img.width = 1 ∧ img.height = 1) →
      get_smallest_stride img ib = 1)
    ∧ (∀ (img : Image) (ib : Bool) (s' : Finset Nat),
        get_smallest_stride_phase1 img ∅ ib = some s' → s' = ∅ →
        (∀ y < img.height, ∀ r ∈ checkedRuns ib (rowList img y), r.1.a = 0)
          ∧ (∀ x < img.width, ∀ r ∈ checkedRuns ib (colList img x), r.1.a = 0)) := by
  constructor
  · intro img ib hdeg
    rcases hdeg with ⟨hw, hh⟩ | ⟨hw, hh⟩
    · have hd : imgDisproves img ib = false := by
        unfold imgDisproves
        rw [hw, hh]
        rfl
      have hc : imgCands img ib = ∅ := by
        unfold imgCands
        rw [hw, hh]
        rfl
      unfold get_smallest_stride
      rw [phase1_runs, if_neg (by rw [hd]; exact Bool.false_ne_true)]
      show get_smallest_stride_phase2 (∅ ∪ imgCands img ib) = 1
      rw [Finset.empty_union, hc]
      exact phase2_empty
    · have hrow : rowList img 0 = [img.pix 0 0] := by
        unfold rowList
        rw [hw]
        rfl
      have hcol : colList img 0 = [img.pix 0 0] := by
        unfold colList
        rw [hh]
        rfl
      cases ib with
      | false =>
        have hd : imgDisproves img false = true := by
          apply imgDisproves_iff.mpr
          apply Or.inl
          refine ⟨0, by omega, ?_⟩
          rw [hrow]
          rfl
        unfold get_smallest_stride
        rw [(phase1_none_iff img ∅ false).mpr hd]
      | true =>
        have hd : imgDisproves img true = false := by
          unfold imgDisproves
          rw [hw, hh]
          show ((lineDisproves true (rowList img 0) || false)
              || (lineDisproves true (colList img 0) || false)) = false
          rw [hrow, hcol]
          rfl
        have hc : imgCands img true = ∅ := by
          unfold imgCands
          rw [hw, hh]
          show (lineCands true (rowList img 0) ∪ ∅)
              ∪ (lineCands true (colList img 0) ∪ ∅) = ∅
          rw [hrow, hcol]
          rfl
        unfold get_smallest_stride
        rw [phase1_runs, if_neg (by rw [hd]; exact Bool.false_ne_true)]
        show get_smallest_stride_phase2 (∅ ∪ imgCands img true) = 1
        rw [Finset.empty_union, hc]
        exact phase2_empty
  · intro img ib s' hsome hempty
    subst hempty
    rw [phase1_runs] at hsome
    by_cases hd : imgDisproves img ib
    · rw [if_pos hd] at hsome
      exact absurd hsome (by simp)
    · rw [if_neg hd] at hsome
      have hcands : imgCands img ib = ∅ := by
        have hset : ∅ ∪ imgCands img ib = ∅ := by
          injection hsome
        rw [Finset.empty_union] at hset
        exact hset
      constructor
      · intro y hy r hr
        by_contra ha
        have hnd : lineDisproves ib (rowList img y) = false := by
          apply Bool.eq_false_iff.mpr
          intro ht
          exact hd (imgDisproves_iff.mpr (Or.inl ⟨y, hy, ht⟩))
        have hr1 : r.2 ≠ 1 := by
          intro h1
          have hld := lineDisproves_iff.mpr ⟨r, hr, h1⟩
          rw [hnd] at hld
          exact Bool.false_ne_true hld
        have hpos : 0 < r.2 := runsOf_pos _ r (checkedRuns_mem_runsOf r hr)
        have hmem : r.2 ∈ imgCands img ib :=
          mem_imgCands_runs.mpr
            (Or.inl ⟨y, hy, r, hr, rfl, hr1, hpos, Nat.pos_of_ne_zero ha⟩)
        rw [hcands] at hmem
        exact absurd hmem (Finset.not_mem_empty _)
      · intro x hx r hr
        by_contra ha
        have hnd : lineDisproves ib (colList img x) = false := by
          apply Bool.eq_false_iff.mpr
          intro ht
          exact hd (imgDisproves_iff.mpr (Or.inr ⟨x, hx, ht⟩))
        have hr1 : r.2 ≠ 1 := by
          intro h1
          have hld := lineDisproves_iff.mpr ⟨r, hr, h1⟩
          rw [hnd] at hld
          exact Bool.false_ne_true hld
        have hpos : 0 < r.2 := runsOf_pos _ r (checkedRuns_mem_runsOf r hr)
        have hmem : r.2 ∈ imgCands img ib :=
          mem_imgCands_runs.mpr
            (Or.inr ⟨x, hx, r, hr, rfl, hr1, hpos, Nat.pos_of_ne_zero ha⟩)
        rw [hcands] at hmem
        exact absurd hmem (Finset.not_mem_empty _)

/-- Witness for C8: a concrete 1×1 frame yields 1, and the 2×2 transparent
frame's empty result comes with all checked runs transparent. -/
theorem claim_C8_witness :
    get_smallest_stride (constImg 1 1 ⟨7, 7, 7, 255⟩) false = 1
      ∧ ((∀ y < imgC8cex.height, ∀ r ∈ checkedRuns false (rowList imgC8cex y), r.1.a = 0)
        ∧ (∀ x < imgC8cex.width, ∀ r ∈ checkedRuns false (colList imgC8cex x), r.1.a = 0)) :=
  ⟨claim_C8.1 (constImg 1 1 ⟨7, 7, 7, 255⟩) false (Or.inr ⟨rfl, rfl⟩),
   claim_C8.2 imgC8cex false ∅ (by decide) rfl⟩

/-- Claim C9: every value the scanner inserts is at least 2 (never 0 or 1), for
every image and both border settings; consequently on such sets the reducer
computes the same result as the variant without its defensive branches for a
smallest candidate of 0 or 1. -/
theorem claim_C9 :
    (∀ (img : Image) (ib : Bool) (s s' : Finset Nat),
      get_smallest_stride_phase1 img s ib = some s' →
      ∀ k ∈ s', k ∈ s ∨ 2 ≤ k)
    ∧ (∀ S : Finset Nat, (∀ k ∈ S, 2 ≤ k) →
        get_smallest_stride_phase2 S = phase2_nodefense S) := by
  constructor
  · intro img ib s s' hs' k hk
    rw [phase1_runs] at hs'
    by_cases hd : imgDisproves img ib
    · rw [if_pos hd] at hs'
      exact absurd hs' (by simp)
    · rw [if_neg hd] at hs'
      have hset : s' = s ∪ imgCands img ib := by
        injection hs' with h
        exact h.symm
      rw [hset, Finset.mem_union] at hk
      rcases hk with hk | hk
      · exact Or.inl hk
      · exact Or.inr (imgCands_ge_two hk)
  · exact phase2_eq_nodefense

/-- A 4×4 constant image. -/
def imgC9w : Image := constImg 4 4 ⟨3, 1, 4, 200⟩

/-- Witness for C9: concrete instances of both conjuncts. -/
theorem claim_C9_witness :
    (4 ∈ (∅ : Finset Nat) ∨ 2 ≤ 4)
      ∧ get_smallest_stride_phase2 {4, 8} = phase2_nodefense {4, 8} :=
  ⟨claim_C9.1 imgC9w false ∅ {4} (by decide) 4 (by decide),
   claim_C9.2 {4, 8} (by decide)⟩

/-- Claim C10: the scan is modelled as a total function; its run counters are
always bounded by the scanned line's length (so with `width, height < 2^32`
the `u32` increments cannot overflow), every inserted candidate is bounded by
`max width height`, and the per-column state is never touched at any index
at or beyond `width` (the `curr_y[x]` access stays within the vector created
with exactly `width` entries). -/
theorem claim_C10 :
    (∀ (ib : Bool) (l : List Rgba), ((lineA ib l 0 dummyCS).1).stride ≤ l.length)
    ∧ (∀ (img : Image) (ib : Bool) (s s' : Finset Nat),
        get_smallest_stride_phase1 img s ib = some s' →
        ∀ k ∈ s', k ∈ s ∨ k ≤ max img.width img.height)
    ∧ (∀ (img : Image) (ib : Bool) (x : Nat), img.width ≤ x →
        (forLoopA (scanRowA img ib) img.height 0 (fun _ => dummyCS)).1 x = dummyCS) := by
  refine ⟨fun ib l => lineA_state_le ib l, ?_, fun img ib x hx => scan_out_of_range img ib x hx⟩
  intro img ib s s' hs' k hk
  rw [phase1_runs] at hs'
  by_cases hd : imgDisproves img ib
  · rw [if_pos hd] at hs'
    exact absurd hs' (by simp)
  · rw [if_neg hd] at hs'
    have hset : s' = s ∪ imgCands img ib := by
      injection hs' with h
      exact h.symm
    rw [hset, Finset.mem_union] at hk
    rcases hk with hk | hk
    · exact Or.inl hk
    · exact Or.inr (imgCands_le_max hk)

/-- A 4×2 constant image. -/
def imgC10w : Image := constImg 4 2 ⟨2, 7, 1, 128⟩

/-- Witness for C10: concrete instances of the three conjuncts. -/
theorem claim_C10_witness :
    ((lineA false [⟨1, 1, 1, 9⟩, ⟨1, 1, 1, 9⟩] 0 dummyCS).1.stride ≤ 2
      ∧ (4 ∈ (∅ : Finset Nat) ∨ 4 ≤ max imgC10w.width imgC10w.height)
      ∧ (forLoopA (scanRowA imgC10w false) imgC10w.height 0 (fun _ => dummyCS)).1 9
          = dummyCS) :=
  ⟨claim_C10.1 false [⟨1, 1, 1, 9⟩, ⟨1, 1, 1, 9⟩],
   claim_C10.2.1 imgC10w false ∅ {2, 4} (by decide) 4 (by decide),
   claim_C10.2.2 imgC10w false 9 (by decide)⟩
